import Mathlib

/-!
This file is a shallow embedding, in Lean 4, of the core game engine of the
triple-triad-app repository (a 3×3 card-capture game), together with theorems
checking the natural-language specification against it.

The embedding follows `src/src/App.tsx`:
  - `calculateStats` (App.tsx line 72) — elemental stat adjustment,
  - `placeCard` (App.tsx lines 484–597) — placement, SAME, PLUS, basic
    captures and the COMBO cascade,
  - `scores` (App.tsx lines 599–603),
  - the round/series transition of the `useEffect` at lines 605–613,
  - `evaluateMove` / `getBestMove` (App.tsx lines 79–133) — the CPU heuristic.

JavaScript numbers holding card stats are modeled as `Int`; the CPU score,
which divides by 4, is modeled as `ℚ`.  Board tiles live in a `List` of
length 9; out-of-range accesses (which throw in the original) are modeled by
`Option`, with `none` standing for an uncaught runtime error.  The nondeterminism
of `Math.random` is modeled by explicit parameters.
-/

namespace TT

/-- `PlayerType` of App.tsx: the two sides. -/
inductive Player where
  | P1 : Player
  | P2 : Player
deriving Repr, DecidableEq, BEq

/-- The opposite side; `owner === 'P1' ? 'P2' : 'P1'` (App.tsx line 596). -/
def other : Player → Player
  | .P1 => .P2
  | .P2 => .P1

/-- The presentation events emitted by `triggerEffect` (App.tsx line 479). -/
inductive Effect where
  | SAME : Effect
  | PLUS : Effect
  | COMBO : Effect
deriving Repr, DecidableEq

/-- `cpuDifficulty` values of `GameSettings`. -/
inductive Difficulty where
  | LOW : Difficulty
  | MID : Difficulty
  | HIGH : Difficulty
  | EXPERT : Difficulty
deriving Repr, DecidableEq

/-- The rule-toggle part of `GameSettings` (App.tsx lines 16–22). -/
structure GameSettings where
  elementalEnabled : Bool
  sameEnabled : Bool
  plusEnabled : Bool
  cpuDifficulty : Difficulty
  pvpMode : Bool
deriving Repr, DecidableEq

/-- The `Card` record (App.tsx lines 24–33).  `stats` is ordered
[up, left, right, down]; `modifiedStats` is the write-once effective-stats
snapshot filled in at placement; `attr` is the elemental attribute. -/
structure Card where
  id : Nat
  level : Nat
  name : String
  stats : List Int
  modifiedStats : Option (List Int)
  attr : Option String
  owner : Option Player
deriving Repr, DecidableEq

/-- A board tile (App.tsx lines 35–38). -/
structure BoardTile where
  card : Option Card
  element : Option String
deriving Repr, DecidableEq

/-- The board is the `BoardTile[]` array (9 tiles row-major). -/
abbrev Board := List BoardTile

/-- `card.modifiedStats || card.stats` — the stat vector a board card fights
with. -/
def statsOf (c : Card) : List Int := c.modifiedStats.getD c.stats

/-- `calculateStats` (App.tsx lines 72–76): with no tile element the base
stats; otherwise ±1 on every stat depending on attribute match, clamped to
[1,10]. -/
def calculateStats (card : Card) (element : Option String) : List Int :=
  match element with
  | none => card.stats
  | some e =>
      let modifier : Int := if card.attr = some e then 1 else -1
      card.stats.map fun s => max 1 (min 10 (s + modifier))

/-- One entry of the `getNeighbors` table (App.tsx lines 494–499).
`pos` uses truncated `Nat` subtraction; whenever `active` is true the
subtraction is exact, and the source never reads `pos` of an inactive
neighbor. -/
structure Neighbor where
  pos : Nat
  side : Nat
  oppSide : Nat
  active : Bool
deriving Repr, DecidableEq

/-- `getNeighbors` (App.tsx lines 494–499): up, left, right, down. -/
def getNeighbors (i : Nat) : List Neighbor :=
  [ ⟨i - 3, 0, 3, decide (3 ≤ i)⟩,
    ⟨i - 1, 1, 2, decide (i % 3 ≠ 0)⟩,
    ⟨i + 1, 2, 1, decide (i % 3 ≠ 2)⟩,
    ⟨i + 3, 3, 0, decide (i < 6)⟩ ]

/-- The data recorded for each occupied active neighbor in the collection
pass of `placeCard` (App.tsx lines 506–521) and in `evaluateMove`
(App.tsx lines 90–95): position, the placed card's facing value, the
neighbor's opposite-side value, and the neighbor card's owner. -/
structure NbVal where
  pos : Nat
  myVal : Int
  oppVal : Int
  nbOwner : Option Player
deriving Repr, DecidableEq

/-- Collect `(myValue, theirValue)` for every active, occupied neighbor of
`idx`, in the source's fixed up/left/right/down order. -/
def neighborVals (b : Board) (stats : List Int) (idx : Nat) : List NbVal :=
  (getNeighbors idx).filterMap fun n =>
    if n.active then
      match b[n.pos]? with
      | some t =>
          t.card.map fun c =>
            ⟨n.pos, stats.getD n.side 0, (statsOf c).getD n.oppSide 0, c.owner⟩
      | none => none
    else none

/-- The positions pushed into `sameMatches` (App.tsx line 513): active
occupied neighbors whose facing values are equal, collected only when the
SAME rule is enabled. -/
def sameMatchesOf (se : Bool) (nv : List NbVal) : List Nat :=
  if se then (nv.filter fun x => decide (x.myVal = x.oppVal)).map (·.pos) else []

/-- Insert into an ascending list (helper for the key ordering below). -/
def insertAsc (a : Int) : List Int → List Int
  | [] => [a]
  | b :: r => if a ≤ b then a :: b :: r else b :: insertAsc a r

/-- Ascending insertion sort on sums. -/
def sortAsc : List Int → List Int
  | [] => []
  | a :: r => insertAsc a (sortAsc r)

/-- The `plusSums` groups (App.tsx lines 514–518) in the order
`Object.values` yields them: ascending sum (JavaScript integer-keyed
properties), each group listing positions in neighbor order. -/
def plusGroupsOf (pe : Bool) (nv : List NbVal) : List (List Nat) :=
  if pe then
    (sortAsc ((nv.map fun x => x.myVal + x.oppVal).eraseDups)).map
      fun s => (nv.filter fun x => decide (x.myVal + x.oppVal = s)).map (·.pos)
  else []

/-- The owner of the card at `pos`, if the tile exists and is occupied. -/
def ownerAtB (b : Board) (pos : Nat) : Option Player :=
  match b[pos]? with
  | some t => match t.card with
      | some c => c.owner
      | none => none
  | none => none

/-- The card at `pos`, if any. -/
def cardAtB (b : Board) (pos : Nat) : Option Card :=
  match b[pos]? with
  | some t => t.card
  | none => none

/-- `nextBoard[pos].card!.owner = owner` — reassign only the owner field of
the card at `pos`.  Tiles without a card (never hit by the source on its
reachable paths) are left unchanged. -/
def flipOwner (b : Board) (pos : Nat) (o : Player) : Board :=
  match b[pos]? with
  | some t =>
      match t.card with
      | some c => b.set pos { t with card := some { c with owner := some o } }
      | none => b
  | none => b

/-- The mutable state threaded through the capture phases of `placeCard`:
the board under mutation, `flippedIndices`, and `comboQueue`. -/
structure CascState where
  board : Board
  flipped : List Nat
  queue : List Nat
deriving Repr, DecidableEq

/-- The body of the SAME/PLUS seeding loops (App.tsx lines 528–534 and
541–547): capture the neighbor if it is not already the mover's, and push it
onto the combo queue unconditionally. -/
def captureSeed (o : Player) (st : CascState) (pos : Nat) : CascState :=
  if ownerAtB st.board pos = some o then
    { st with queue := st.queue ++ [pos] }
  else
    { board := flipOwner st.board pos o,
      flipped := st.flipped ++ [pos],
      queue := st.queue ++ [pos] }

/-- The SAME block (App.tsx lines 525–535).  Returns the new state and
whether the rule fired. -/
def applySame (se : Bool) (ms : List Nat) (o : Player) (st : CascState) :
    CascState × Bool :=
  if se = true ∧ 2 ≤ ms.length then
    (ms.foldl (captureSeed o) st, true)
  else (st, false)

/-- One iteration of the PLUS `Object.values(plusSums).forEach` loop
(App.tsx lines 538–549): a sum group of size ≥ 2 fires, capturing and
seeding its members and latching the `plusTriggered` flag. -/
def plusStep (o : Player) (acc : CascState × Bool) (g : List Nat) :
    CascState × Bool :=
  if 2 ≤ g.length then (g.foldl (captureSeed o) acc.1, true) else acc

/-- The PLUS block (App.tsx lines 536–551). -/
def applyPlus (groups : List (List Nat)) (o : Player) (st : CascState) :
    CascState × Bool :=
  groups.foldl (plusStep o) (st, false)

/-- One neighbor of the basic-rule loop (App.tsx lines 554–567): capture an
opponent-owned occupied neighbor whose facing value is beaten strictly.
Basic captures are recorded in `flippedIndices` but never seeded into the
combo queue. -/
def basicStep (stats : List Int) (o : Player) (st : CascState) (n : Neighbor) :
    CascState :=
  if n.active then
    match cardAtB st.board n.pos with
    | some target =>
        if target.owner ≠ some o ∧
            (statsOf target).getD n.oppSide 0 < stats.getD n.side 0 then
          { st with board := flipOwner st.board n.pos o,
                    flipped := st.flipped ++ [n.pos] }
        else st
    | none => st
  else st

/-- The basic-rule block (App.tsx lines 554–567). -/
def applyBasic (stats : List Int) (idx : Nat) (o : Player) (st : CascState) :
    CascState :=
  (getNeighbors idx).foldl (basicStep stats o) st

/-- One neighbor of the combo loop body (App.tsx lines 574–589): an
opponent-owned neighbor beaten by the dequeued card's stored stats is
captured, and enqueued unless already in `flippedIndices`. -/
def comboNbStep (o : Player) (cStats : List Int) (st : CascState) (n : Neighbor) :
    CascState :=
  if n.active then
    match cardAtB st.board n.pos with
    | some target =>
        if target.owner ≠ some o ∧
            (statsOf target).getD n.oppSide 0 < cStats.getD n.side 0 then
          if n.pos ∈ st.flipped then
            { st with board := flipOwner st.board n.pos o }
          else
            { board := flipOwner st.board n.pos o,
              flipped := st.flipped ++ [n.pos],
              queue := st.queue ++ [n.pos] }
        else st
    | none => st
  else st

/-- Process one dequeued tile of the combo cascade: fight all four
neighbors with the dequeued card's stored `effectiveStats`. -/
def comboProcess (o : Player) (st : CascState) (cIdx : Nat) : CascState :=
  let cStats := match cardAtB st.board cIdx with
    | some c => statsOf c
    | none => []
  (getNeighbors cIdx).foldl (comboNbStep o cStats) st

/-- How many of the first `len` tile indices are not yet in `fl`. -/
def unseenCount (len : Nat) (fl : List Nat) : Nat :=
  ((List.range len).filter fun i => decide (i ∉ fl)).length

/-- Fuel that provably suffices for the combo `while` loop: each iteration
consumes a queue entry, and entries are only added together with a fresh
member of `flippedIndices`. -/
def comboFuel (st : CascState) : Nat :=
  st.queue.length + 2 * unseenCount st.board.length st.flipped

/-- The combo `while` loop (App.tsx lines 570–590), with explicit fuel.
Also returns the trace of processed (dequeued) tile indices. -/
def comboRun (o : Player) : Nat → CascState → CascState × List Nat
  | 0, st => (st, [])
  | fuel + 1, st =>
      match st.queue with
      | [] => (st, [])
      | c :: rest =>
          let st1 := comboProcess o ⟨st.board, st.flipped, rest⟩ c
          let r := comboRun o fuel st1
          (r.1, c :: r.2)

/-- The full game state owned by the `useGame` hook that `placeCard`
touches: board, the two hands, and whose turn it is. -/
structure GState where
  board : Board
  p1Hand : List Card
  p2Hand : List Card
  turn : Player
deriving Repr, DecidableEq

/-- The hand of a given player. -/
def handOf (s : GState) : Player → List Card
  | .P1 => s.p1Hand
  | .P2 => s.p2Hand

/-- The SAME, PLUS and basic phases of `placeCard` run on the board `b0`
that already holds the freshly placed card with stats `stats` at `idx`.
Returns the state feeding the combo cascade plus the two trigger flags. -/
def specialsAndBasic (gs : GameSettings) (b0 : Board) (stats : List Int)
    (idx : Nat) (o : Player) : CascState × Bool × Bool :=
  let nv := neighborVals b0 stats idx
  let r1 := applySame gs.sameEnabled (sameMatchesOf gs.sameEnabled nv) o ⟨b0, [], []⟩
  let r2 := applyPlus (plusGroupsOf gs.plusEnabled nv) o r1.1
  (applyBasic stats idx o r2.1, r1.2, r2.2)

/-- `placeCard` (App.tsx lines 484–597).  `none` models an uncaught
JavaScript `TypeError` (tile index or hand index out of range); a returned
pair is the next game state together with the effect events emitted by
`triggerEffect`.  The `hand` argument of the source is always the mover's
own hand at every call site (App.tsx lines 635 and 794), so it is taken
from the state here. -/
def placeCard (gs : GameSettings) (s : GState) (idx handIdx : Nat) (o : Player) :
    Option (GState × List Effect) :=
  match s.board[idx]? with
  | none => none
  | some tile =>
      if tile.card.isSome = true ∨ s.turn ≠ o then some (s, [])
      else
        match (handOf s o)[handIdx]? with
        | none => none
        | some card =>
            let stats := calculateStats card tile.element
            let b0 := s.board.set idx
              { tile with card := some { card with owner := some o, modifiedStats := some stats } }
            let r := specialsAndBasic gs b0 stats idx o
            let fin := (comboRun o (comboFuel r.1) r.1).1
            let evs : List Effect :=
              (if r.2.1 then [Effect.SAME] else []) ++
              (if r.2.2 then [Effect.PLUS] else []) ++
              List.replicate (fin.flipped.length - r.1.flipped.length) Effect.COMBO
            some ({ board := fin.board,
                    p1Hand := if o = .P1 then s.p1Hand.eraseIdx handIdx else s.p1Hand,
                    p2Hand := if o = .P2 then s.p2Hand.eraseIdx handIdx else s.p2Hand,
                    turn := other o }, evs)

/-- Number of occupied tiles. -/
def occupiedCount (b : Board) : Nat := b.countP fun t => t.card.isSome

/-- The `scores` memo (App.tsx lines 599–603): hand size plus owned board
tiles, per player. -/
def scoreP1 (s : GState) : Nat :=
  s.p1Hand.length + s.board.countP fun t => t.card.any fun c => decide (c.owner = some Player.P1)

/-- Player 2's score (App.tsx lines 599–603). -/
def scoreP2 (s : GState) : Nat :=
  s.p2Hand.length + s.board.countP fun t => t.card.any fun c => decide (c.owner = some Player.P2)

/-- States reachable from `s` during a round by (possibly rejected) calls
to `placeCard` under a fixed rule configuration. -/
inductive Reach (gs : GameSettings) : GState → GState → Prop
  | refl (s : GState) : Reach gs s s
  | step {s t u : GState} {idx hIdx : Nat} {o : Player} {evs : List Effect} :
      Reach gs s t → placeCard gs t idx hIdx o = some (u, evs) → Reach gs s u

/-- The initial shape of a round: two 5-card hands and an empty board. -/
def InitRound (s : GState) : Prop :=
  s.p1Hand.length = 5 ∧ s.p2Hand.length = 5 ∧ ∀ t ∈ s.board, t.card = none

/-- Round winners, `MatchResult.winner` values. -/
inductive Winner where
  | P1 : Winner
  | P2 : Winner
  | DRAW : Winner
deriving Repr, DecidableEq

/-- A `MatchResult` (App.tsx lines 40–43). -/
structure MatchResult where
  winner : Winner
  scores : Nat × Nat
deriving Repr, DecidableEq

/-- The states of the round/series machine that the round-end transition
distinguishes. -/
inductive Phase where
  | PLAYING : Phase
  | ROUND_END : Phase
  | GAME_OVER : Phase
deriving Repr, DecidableEq

/-- Winner computation of the round-end `useEffect` (App.tsx line 607). -/
def roundWinner (s1 s2 : Nat) : Winner :=
  if s2 < s1 then .P1 else if s1 < s2 then .P2 else .DRAW

/-- Count of rounds won by a given winner tag. -/
def winCount (results : List MatchResult) (w : Winner) : Nat :=
  (results.filter fun r => decide (r.winner = w)).length

/-- The series-over test of App.tsx line 610. -/
def seriesOver (results : List MatchResult) : Bool :=
  decide (3 ≤ results.length) || decide (2 ≤ winCount results .P1) ||
    decide (2 ≤ winCount results .P2)

/-- The round-end transition (App.tsx lines 605–613): fires only in
`PLAYING` with a full board; appends one `MatchResult` and moves to
`GAME_OVER` or `ROUND_END`. -/
def roundEndStep (phase : Phase) (board : Board) (results : List MatchResult)
    (s1 s2 : Nat) : List MatchResult × Phase :=
  if phase = .PLAYING ∧ board.all (fun t => t.card.isSome) = true then
    let results' := results ++ [⟨roundWinner s1 s2, (s1, s2)⟩]
    (results', if seriesOver results' then .GAME_OVER else .ROUND_END)
  else (results, phase)

/-- Indices of the empty tiles, in board order (App.tsx line 124). -/
def emptyCells (b : Board) : List Nat :=
  b.enum.filterMap fun p => if p.2.card.isNone then some p.1 else none

/-- The intermediate quantities computed by `evaluateMove` (App.tsx lines
79–121): the combined flip count, the two rule-trigger flags, the stat sum
feeding the defense term, and the corner test.  Everything here is exact
and decidable; the ℚ score is assembled from these below. -/
structure EvalParts where
  flips : Nat
  sameFires : Bool
  plusFires : Bool
  statSum : Int
  corner : Bool
deriving Repr, DecidableEq

/-- The computation body of `evaluateMove` (App.tsx lines 79–121).  Note
that it reads only `sameEnabled` and `plusEnabled` from the settings —
never `cpuDifficulty`. -/
def evalParts (boardIdx : Nat) (card : Card) (currentBoard : Board)
    (o : Player) (gs : GameSettings) : EvalParts :=
  let stats := calculateStats card ((currentBoard[boardIdx]?).bind (·.element))
  let nd := neighborVals currentBoard stats boardIdx
  let sames := nd.filter fun n => decide (n.myVal = n.oppVal)
  let sameFires := gs.sameEnabled && decide (2 ≤ sames.length)
  let sameFlips : Nat :=
    if sameFires then (sames.filter fun n => decide (n.nbOwner ≠ some o)).length else 0
  let sumsAll := nd.map fun n => n.myVal + n.oppVal
  let plusKeys : List Int :=
    if gs.plusEnabled then sumsAll.eraseDups.filter (fun s => decide (2 ≤ sumsAll.count s))
    else []
  let plusFlips : Nat :=
    (plusKeys.map fun s =>
      (nd.filter fun n => decide (n.myVal + n.oppVal = s ∧ n.nbOwner ≠ some o)).length).sum
  let basicFlips : Nat :=
    (nd.filter fun n => decide (n.oppVal < n.myVal ∧ n.nbOwner ≠ some o)).length
  { flips := sameFlips + plusFlips + basicFlips,
    sameFires := sameFires,
    plusFires := decide (plusKeys ≠ []),
    statSum := stats.foldl (· + ·) 0,
    corner := decide (boardIdx = 0 ∨ boardIdx = 2 ∨ boardIdx = 6 ∨ boardIdx = 8) }

/-- `evaluateMove` (App.tsx lines 79–121): 20 per counted flip, flat 50
for SAME, flat 60 for PLUS, average-stat defense term, 15 for corners. -/
def evaluateMove (boardIdx : Nat) (card : Card) (currentBoard : Board)
    (o : Player) (gs : GameSettings) : ℚ :=
  let p := evalParts boardIdx card currentBoard o gs
  (p.flips : ℚ) * 20 +
    (if p.sameFires then (50 : ℚ) else 0) +
    (if p.plusFires then (60 : ℚ) else 0) +
    (p.statSum : ℚ) / 4 * 2 +
    (if p.corner then (15 : ℚ) else 0)

/-- A scored CPU candidate move. -/
structure Move where
  boardIdx : Nat
  handIdx : Nat
  score : ℚ
deriving Repr, DecidableEq

/-- The `moves` list of `getBestMove` (App.tsx lines 128–130): every
(empty tile × hand card) pair scored by `evaluateMove` for `'P2'`. -/
def candidateMoves (board : Board) (hand : List Card) (gs : GameSettings) :
    List Move :=
  (emptyCells board).flatMap fun cellIdx =>
    hand.enum.map fun p => ⟨cellIdx, p.1, evaluateMove cellIdx p.2 board .P2 gs⟩

/-- `getBestMove` (App.tsx lines 123–133).  `rt` and `rh` stand for the two
`Math.floor(Math.random() * len)` draws of the LOW branch; `ranked` stands
for the output of the `sort` call with its random tie-break comparator (any
score-descending permutation of `candidateMoves`).  `none` models the
undefined result when no tile is empty. -/
def getBestMove (board : Board) (hand : List Card) (gs : GameSettings)
    (rt rh : Nat) (ranked : List Move) : Option (Nat × Nat) :=
  if gs.cpuDifficulty = .LOW ∨ (emptyCells board).isEmpty = true then
    ((emptyCells board)[rt]?).map fun b => (b, if hand.isEmpty then 0 else rh)
  else
    ranked.head?.map fun m => (m.boardIdx, m.handIdx)

/-! ### Basic lemmas about the board embedding -/

/-- Everything about a tile except the occupying card's owner: the tile
element and the occupying card with its owner field blanked out. -/
def tileShape (t : BoardTile) : Option String × Option Card :=
  (t.element, t.card.map fun c => { c with owner := none })

/-- `b'` is `b` with only card owners possibly changed. -/
def BoardSim (b b' : Board) : Prop :=
  List.Forall₂ (fun t t' => tileShape t = tileShape t') b b'

theorem BoardSim.refl (b : Board) : BoardSim b b := by
  induction b with
  | nil => exact List.Forall₂.nil
  | cons t r ih => exact List.Forall₂.cons rfl ih

theorem BoardSim.trans {a b c : Board} (h1 : BoardSim a b) (h2 : BoardSim b c) :
    BoardSim a c := by
  induction h1 generalizing c with
  | nil => cases h2; exact List.Forall₂.nil
  | cons h _ ih =>
      cases h2 with
      | cons h' hrest => exact List.Forall₂.cons (h.trans h') (ih hrest)

theorem BoardSim.length {b b' : Board} (h : BoardSim b b') : b'.length = b.length :=
  (List.Forall₂.length_eq h).symm

theorem BoardSim.get {b b' : Board} (h : BoardSim b b') (q : Nat) :
    (b'[q]?).map tileShape = (b[q]?).map tileShape := by
  induction h generalizing q with
  | nil => rfl
  | cons hh _ ih =>
      cases q with
      | zero => simpa using hh.symm
      | succ q => simpa using ih q

theorem boardSim_of_get {b b' : Board} (hl : b'.length = b.length)
    (hg : ∀ q : Nat, (b'[q]?).map tileShape = (b[q]?).map tileShape) : BoardSim b b' := by
  induction b generalizing b' with
  | nil => cases b' with
      | nil => exact List.Forall₂.nil
      | cons t' r' => simp at hl
  | cons t r ih =>
      cases b' with
      | nil => simp at hl
      | cons t' r' =>
          have h0 : tileShape t = tileShape t' := by
            have := hg 0
            simpa using this.symm
          have hrest : ∀ q : Nat, (r'[q]?).map tileShape = (r[q]?).map tileShape := by
            intro q
            have := hg (q + 1)
            simpa using this
          exact List.Forall₂.cons h0 (ih (by simpa using hl) hrest)

theorem flipOwner_length (b : Board) (pos : Nat) (o : Player) :
    (flipOwner b pos o).length = b.length := by
  cases hb : b[pos]? with
  | none => simp [flipOwner, hb]
  | some t =>
      cases hc : t.card with
      | none => simp [flipOwner, hb, hc]
      | some c => simp [flipOwner, hb, hc]

theorem flipOwner_get_ne (b : Board) (pos : Nat) (o : Player) {q : Nat}
    (h : q ≠ pos) : (flipOwner b pos o)[q]? = b[q]? := by
  cases hb : b[pos]? with
  | none => simp [flipOwner, hb]
  | some t =>
      cases hc : t.card with
      | none => simp [flipOwner, hb, hc]
      | some c =>
          simp only [flipOwner, hb, hc]
          exact List.getElem?_set_ne (fun he => h he.symm)

theorem flipOwner_sim (b : Board) (pos : Nat) (o : Player) :
    BoardSim b (flipOwner b pos o) := by
  refine boardSim_of_get (flipOwner_length b pos o) fun q => ?_
  by_cases hq : q = pos
  · subst hq
    cases hb : b[q]? with
    | none => simp [flipOwner, hb]
    | some t =>
        cases hc : t.card with
        | none => simp [flipOwner, hb, hc]
        | some c =>
            have hlt : q < b.length := (List.getElem?_eq_some.mp hb).1
            simp only [flipOwner, hb, hc]
            rw [List.getElem?_set_self (by simpa using hlt)]
            simp [tileShape, hc]
  · rw [flipOwner_get_ne b pos o hq]

theorem flipOwner_card_at {b : Board} {pos : Nat} {c : Card} (o : Player)
    (h : cardAtB b pos = some c) :
    cardAtB (flipOwner b pos o) pos = some { c with owner := some o } := by
  cases hb : b[pos]? with
  | none =>
      simp only [cardAtB, hb] at h
      exact Option.noConfusion h
  | some t =>
      simp only [cardAtB, hb] at h
      have hlt : pos < b.length := (List.getElem?_eq_some.mp hb).1
      simp only [flipOwner, hb, h, cardAtB]
      rw [List.getElem?_set_self (by simpa using hlt)]

/-- Card presence at each position is part of the tile shape. -/
theorem BoardSim.card_isSome {b b' : Board} (h : BoardSim b b') (q : Nat) :
    (cardAtB b' q).isSome = (cardAtB b q).isSome := by
  have hg := h.get q
  unfold cardAtB
  cases hb : b[q]? with
  | none =>
      rw [hb] at hg
      cases hb' : b'[q]? with
      | none => rfl
      | some t' => rw [hb'] at hg; simp at hg
  | some t =>
      rw [hb] at hg
      cases hb' : b'[q]? with
      | none => rw [hb'] at hg; simp at hg
      | some t' =>
          rw [hb'] at hg
          have hg' : tileShape t' = tileShape t := by simpa using hg
          have : (tileShape t').2.isSome = (tileShape t).2.isSome := by rw [hg']
          simpa [tileShape] using this

/-- Every card sitting on the board has a non-null owner. -/
def OwnersSome (b : Board) : Prop :=
  ∀ t ∈ b, ∀ c, t.card = some c → c.owner.isSome = true

theorem ownersSome_flipOwner {b : Board} (h : OwnersSome b) (pos : Nat) (o : Player) :
    OwnersSome (flipOwner b pos o) := by
  cases hb : b[pos]? with
  | none => simpa only [flipOwner, hb] using h
  | some t =>
      cases hc : t.card with
      | none => simpa only [flipOwner, hb, hc] using h
      | some c =>
          simp only [flipOwner, hb, hc]
          intro t' ht' c' hc'
          rcases List.mem_or_eq_of_mem_set ht' with hmem | heq
          · exact h t' hmem c' hc'
          · subst heq
            simp at hc'
            subst hc'
            rfl

/-! ### Lemmas about the SAME/PLUS capture-and-seed loops -/

theorem ownerAtB_eq (b : Board) (pos : Nat) :
    ownerAtB b pos = (cardAtB b pos).bind fun c => c.owner := by
  cases hb : b[pos]? with
  | none => simp [ownerAtB, cardAtB, hb]
  | some t =>
      cases hc : t.card with
      | none => simp [ownerAtB, cardAtB, hb, hc]
      | some c => simp [ownerAtB, cardAtB, hb, hc]

theorem ownerAtB_congr {b b' : Board} {pos : Nat}
    (h : b'[pos]? = b[pos]?) : ownerAtB b' pos = ownerAtB b pos := by
  unfold ownerAtB
  rw [h]

theorem cardAtB_congr {b b' : Board} {pos : Nat}
    (h : b'[pos]? = b[pos]?) : cardAtB b' pos = cardAtB b pos := by
  unfold cardAtB
  rw [h]

theorem captureSeed_queue (o : Player) (st : CascState) (pos : Nat) :
    (captureSeed o st pos).queue = st.queue ++ [pos] := by
  unfold captureSeed
  split <;> rfl

theorem captureSeed_sim (o : Player) (st : CascState) (pos : Nat) :
    BoardSim st.board (captureSeed o st pos).board := by
  unfold captureSeed
  split
  · exact BoardSim.refl _
  · exact flipOwner_sim _ _ _

theorem captureSeed_get_ne (o : Player) (st : CascState) (pos : Nat) {q : Nat}
    (h : q ≠ pos) : (captureSeed o st pos).board[q]? = st.board[q]? := by
  unfold captureSeed
  split
  · rfl
  · exact flipOwner_get_ne _ _ _ h

theorem captureSeed_owner (o : Player) (st : CascState) (pos : Nat) {c : Card}
    (h : cardAtB st.board pos = some c) :
    ownerAtB (captureSeed o st pos).board pos = some o := by
  by_cases hguard : ownerAtB st.board pos = some o
  · simp only [captureSeed, if_pos hguard]
    exact hguard
  · simp only [captureSeed, if_neg hguard]
    rw [ownerAtB_eq, flipOwner_card_at o h]
    rfl

theorem captureSeed_owners (o : Player) (st : CascState) (pos : Nat)
    (h : OwnersSome st.board) : OwnersSome (captureSeed o st pos).board := by
  unfold captureSeed
  split
  · exact h
  · exact ownersSome_flipOwner h pos o

theorem seedFold_queue (o : Player) (ps : List Nat) :
    ∀ st : CascState, (ps.foldl (captureSeed o) st).queue = st.queue ++ ps := by
  induction ps with
  | nil => intro st; simp
  | cons a rest ih =>
      intro st
      rw [List.foldl_cons, ih, captureSeed_queue]
      simp

theorem seedFold_sim (o : Player) (ps : List Nat) :
    ∀ st : CascState, BoardSim st.board ((ps.foldl (captureSeed o) st)).board := by
  induction ps with
  | nil => intro st; exact BoardSim.refl _
  | cons a rest ih =>
      intro st
      exact (captureSeed_sim o st a).trans (ih _)

theorem seedFold_get_ne (o : Player) (ps : List Nat) {q : Nat} (h : q ∉ ps) :
    ∀ st : CascState, ((ps.foldl (captureSeed o) st)).board[q]? = st.board[q]? := by
  induction ps with
  | nil => intro st; rfl
  | cons a rest ih =>
      intro st
      have hq : q ≠ a := fun he => h (he ▸ List.mem_cons_self a rest)
      have hr : q ∉ rest := fun hm => h (List.mem_cons_of_mem a hm)
      rw [List.foldl_cons, ih hr, captureSeed_get_ne o st a hq]

theorem seedFold_owner (o : Player) (ps : List Nat) {p : Nat} (hmem : p ∈ ps) :
    ∀ st : CascState, (cardAtB st.board p).isSome = true →
      ownerAtB ((ps.foldl (captureSeed o) st)).board p = some o := by
  induction ps with
  | nil => cases hmem
  | cons a rest ih =>
      intro st hpres
      rw [List.foldl_cons]
      by_cases hr : p ∈ rest
      · have : (cardAtB (captureSeed o st a).board p).isSome = true := by
          rw [(captureSeed_sim o st a).card_isSome]
          exact hpres
        exact ih hr _ this
      · have hpa : p = a := by
          rcases List.mem_cons.mp hmem with h | h
          · exact h
          · exact absurd h hr
        subst hpa
        obtain ⟨c, hc⟩ := Option.isSome_iff_exists.mp hpres
        have h1 : ownerAtB (captureSeed o st p).board p = some o :=
          captureSeed_owner o st p hc
        rw [ownerAtB_congr (seedFold_get_ne o rest hr _)]
        exact h1

theorem seedFold_owners (o : Player) (ps : List Nat) :
    ∀ st : CascState, OwnersSome st.board →
      OwnersSome ((ps.foldl (captureSeed o) st)).board := by
  induction ps with
  | nil => intro st h; exact h
  | cons a rest ih =>
      intro st h
      exact ih _ (captureSeed_owners o st a h)

/-! ### Lemmas about the PLUS group fold -/

/-- The concatenated members of the triggering groups, in processing
order. -/
def trigMembers (groups : List (List Nat)) : List Nat :=
  (groups.filter fun g => decide (2 ≤ g.length)).flatten

theorem trigMembers_nil : trigMembers [] = [] := rfl

theorem trigMembers_cons (g : List Nat) (rest : List (List Nat)) :
    trigMembers (g :: rest) =
      (if 2 ≤ g.length then g else []) ++ trigMembers rest := by
  by_cases hg : 2 ≤ g.length <;> simp [trigMembers, hg]

theorem plusFold_queue (o : Player) (groups : List (List Nat)) :
    ∀ acc : CascState × Bool,
      (groups.foldl (plusStep o) acc).1.queue = acc.1.queue ++ trigMembers groups := by
  induction groups with
  | nil => intro acc; simp [trigMembers]
  | cons g rest ih =>
      intro acc
      rw [List.foldl_cons]
      by_cases hg : 2 ≤ g.length
      · rw [ih]
        simp [plusStep, hg, trigMembers, seedFold_queue]
      · rw [ih]
        simp [plusStep, hg, trigMembers]

theorem plusFold_sim (o : Player) (groups : List (List Nat)) :
    ∀ acc : CascState × Bool,
      BoardSim acc.1.board (groups.foldl (plusStep o) acc).1.board := by
  induction groups with
  | nil => intro acc; exact BoardSim.refl _
  | cons g rest ih =>
      intro acc
      rw [List.foldl_cons]
      refine BoardSim.trans ?_ (ih _)
      unfold plusStep
      split
      · exact seedFold_sim o g _
      · exact BoardSim.refl _

theorem plusFold_get_ne (o : Player) (groups : List (List Nat)) {q : Nat}
    (h : q ∉ trigMembers groups) :
    ∀ acc : CascState × Bool,
      (groups.foldl (plusStep o) acc).1.board[q]? = acc.1.board[q]? := by
  induction groups with
  | nil => intro acc; rfl
  | cons g rest ih =>
      intro acc
      rw [trigMembers_cons] at h
      rw [List.foldl_cons]
      by_cases hg : 2 ≤ g.length
      · rw [if_pos hg] at h
        have hng : q ∉ g := fun hm => h (List.mem_append.mpr (Or.inl hm))
        have hnr : q ∉ trigMembers rest := fun hm => h (List.mem_append.mpr (Or.inr hm))
        rw [ih hnr]
        simp only [plusStep, if_pos hg]
        exact seedFold_get_ne o g hng _
      · rw [if_neg hg] at h
        have hnr : q ∉ trigMembers rest := by simpa using h
        rw [ih hnr]
        simp [plusStep, hg]

theorem plusFold_owner (o : Player) (groups : List (List Nat)) {p : Nat}
    (hmem : p ∈ trigMembers groups) :
    ∀ acc : CascState × Bool, (cardAtB acc.1.board p).isSome = true →
      ownerAtB (groups.foldl (plusStep o) acc).1.board p = some o := by
  induction groups with
  | nil => simp [trigMembers] at hmem
  | cons g rest ih =>
      intro acc hpres
      rw [List.foldl_cons]
      by_cases hr : p ∈ trigMembers rest
      · refine ih hr _ ?_
        have hsim : BoardSim acc.1.board ((plusStep o acc g).1).board := by
          unfold plusStep
          split
          · exact seedFold_sim o g _
          · exact BoardSim.refl _
        rw [hsim.card_isSome]
        exact hpres
      · have hpg : 2 ≤ g.length ∧ p ∈ g := by
          rw [trigMembers_cons] at hmem
          by_cases hg : 2 ≤ g.length
          · rw [if_pos hg] at hmem
            rcases List.mem_append.mp hmem with hp | hp
            · exact ⟨hg, hp⟩
            · exact absurd hp hr
          · rw [if_neg hg] at hmem
            exact absurd (by simpa using hmem) hr
        have h1 : ownerAtB (plusStep o acc g).1.board p = some o := by
          simp only [plusStep, if_pos hpg.1]
          exact seedFold_owner o g hpg.2 _ hpres
        rw [ownerAtB_congr (plusFold_get_ne o rest hr _)]
        exact h1

theorem plusFold_owners (o : Player) (groups : List (List Nat)) :
    ∀ acc : CascState × Bool, OwnersSome acc.1.board →
      OwnersSome (groups.foldl (plusStep o) acc).1.board := by
  induction groups with
  | nil => intro acc h; exact h
  | cons g rest ih =>
      intro acc h
      rw [List.foldl_cons]
      refine ih _ ?_
      unfold plusStep
      split
      · exact seedFold_owners o g _ h
      · exact h

theorem plusFold_flag (o : Player) (groups : List (List Nat)) :
    ∀ acc : CascState × Bool,
      (groups.foldl (plusStep o) acc).2 =
        (acc.2 || groups.any fun g => decide (2 ≤ g.length)) := by
  induction groups with
  | nil => intro acc; simp
  | cons g rest ih =>
      intro acc
      rw [List.foldl_cons, ih]
      by_cases hg : 2 ≤ g.length
      · simp [plusStep, hg]
      · simp [plusStep, hg]

/-! ### Lemmas about the basic-rule loop -/

theorem basicStep_inactive (stats : List Int) (o : Player) (st : CascState)
    {n : Neighbor} (h : n.active = false) : basicStep stats o st n = st := by
  simp [basicStep, h]

theorem basicStep_queue (stats : List Int) (o : Player) (st : CascState)
    (n : Neighbor) : (basicStep stats o st n).queue = st.queue := by
  unfold basicStep
  split
  · split
    · split
      · rfl
      · rfl
    · rfl
  · rfl

theorem basicStep_get_ne (stats : List Int) (o : Player) (st : CascState)
    (n : Neighbor) {q : Nat} (h : q ≠ n.pos) :
    (basicStep stats o st n).board[q]? = st.board[q]? := by
  unfold basicStep
  split
  · split
    · split
      · exact flipOwner_get_ne _ _ _ h
      · rfl
    · rfl
  · rfl

theorem basicStep_sim (stats : List Int) (o : Player) (st : CascState)
    (n : Neighbor) : BoardSim st.board (basicStep stats o st n).board := by
  unfold basicStep
  split
  · split
    · split
      · exact flipOwner_sim _ _ _
      · exact BoardSim.refl _
    · exact BoardSim.refl _
  · exact BoardSim.refl _

theorem basicStep_owners (stats : List Int) (o : Player) (st : CascState)
    (n : Neighbor) (h : OwnersSome st.board) :
    OwnersSome (basicStep stats o st n).board := by
  unfold basicStep
  split
  · split
    · split
      · exact ownersSome_flipOwner h _ _
      · exact h
    · exact h
  · exact h

theorem basicStep_at_self (stats : List Int) (o : Player) (st : CascState)
    {n : Neighbor} {target : Card} (ha : n.active = true)
    (h : cardAtB st.board n.pos = some target) :
    cardAtB (basicStep stats o st n).board n.pos =
      some (if target.owner ≠ some o ∧
              (statsOf target).getD n.oppSide 0 < stats.getD n.side 0
            then { target with owner := some o } else target) := by
  by_cases hc : target.owner ≠ some o ∧
      (statsOf target).getD n.oppSide 0 < stats.getD n.side 0
  · simp only [basicStep, ha, if_true, h, if_pos hc]
    exact flipOwner_card_at o h
  · simp only [basicStep, ha, if_true, h, if_neg hc]

theorem basicFold_queue (stats : List Int) (o : Player) (l : List Neighbor) :
    ∀ st : CascState, ((l.foldl (basicStep stats o) st)).queue = st.queue := by
  induction l with
  | nil => intro st; rfl
  | cons a rest ih =>
      intro st
      rw [List.foldl_cons, ih, basicStep_queue]

theorem basicFold_sim (stats : List Int) (o : Player) (l : List Neighbor) :
    ∀ st : CascState, BoardSim st.board ((l.foldl (basicStep stats o) st)).board := by
  induction l with
  | nil => intro st; exact BoardSim.refl _
  | cons a rest ih =>
      intro st
      exact (basicStep_sim stats o st a).trans (ih _)

theorem basicFold_owners (stats : List Int) (o : Player) (l : List Neighbor) :
    ∀ st : CascState, OwnersSome st.board →
      OwnersSome ((l.foldl (basicStep stats o) st)).board := by
  induction l with
  | nil => intro st h; exact h
  | cons a rest ih =>
      intro st h
      exact ih _ (basicStep_owners stats o st a h)

theorem basicFold_get_ne (stats : List Int) (o : Player) (l : List Neighbor)
    {q : Nat} (h : ∀ n ∈ l, n.active = true → n.pos ≠ q) :
    ∀ st : CascState, ((l.foldl (basicStep stats o) st)).board[q]? = st.board[q]? := by
  induction l with
  | nil => intro st; rfl
  | cons a rest ih =>
      intro st
      have hrest : ∀ n ∈ rest, n.active = true → n.pos ≠ q := fun n hn =>
        h n (List.mem_cons_of_mem a hn)
      rw [List.foldl_cons, ih hrest]
      by_cases hact : a.active = true
      · exact basicStep_get_ne stats o st a fun he => h a (List.mem_cons_self a rest) hact he.symm
      · rw [basicStep_inactive stats o st (Bool.eq_false_iff.mpr hact)]

theorem basicFold_at (stats : List Int) (o : Player) (l : List Neighbor) :
    ∀ (st : CascState) (n : Neighbor) (target : Card), n ∈ l → n.active = true →
      l.Pairwise (fun m k => m.active = true → k.active = true → m.pos ≠ k.pos) →
      cardAtB st.board n.pos = some target →
      cardAtB ((l.foldl (basicStep stats o) st)).board n.pos =
        some (if target.owner ≠ some o ∧
                (statsOf target).getD n.oppSide 0 < stats.getD n.side 0
              then { target with owner := some o } else target) := by
  induction l with
  | nil => intro st n target hmem; cases hmem
  | cons a rest ih =>
      intro st n target hmem hact hpw hcard
      have hpwa := (List.pairwise_cons.mp hpw).1
      have hpw' := (List.pairwise_cons.mp hpw).2
      rw [List.foldl_cons]
      by_cases hnr : n ∈ rest
      · have hkeep : cardAtB (basicStep stats o st a).board n.pos = some target := by
          by_cases haact : a.active = true
          · have hne : a.pos ≠ n.pos := hpwa n hnr haact hact
            rw [cardAtB_congr (basicStep_get_ne stats o st a (fun he => hne he.symm))]
            exact hcard
          · rw [basicStep_inactive stats o st (Bool.eq_false_iff.mpr haact)]
            exact hcard
        exact ih _ n target hnr hact hpw' hkeep
      · have hna : n = a := by
          rcases List.mem_cons.mp hmem with h | h
          · exact h
          · exact absurd h hnr
        subst hna
        have h1 := basicStep_at_self stats o st hact hcard
        have h2 : ∀ k ∈ rest, k.active = true → k.pos ≠ n.pos := by
          intro k hk hkact he
          exact hpwa k hk hact hkact he.symm
        rw [cardAtB_congr (basicFold_get_ne stats o rest h2 _)]
        exact h1

/-- The four neighbor records of a tile have pairwise distinct positions
whenever both members of a pair are active. -/
theorem getNeighbors_pairwise (idx : Nat) :
    (getNeighbors idx).Pairwise
      (fun m k => m.active = true → k.active = true → m.pos ≠ k.pos) := by
  unfold getNeighbors
  refine List.Pairwise.cons ?_ (List.Pairwise.cons ?_ (List.Pairwise.cons ?_ ?_))
  · intro k hk h1 h2
    simp only [List.mem_cons, List.not_mem_nil, or_false] at hk
    rcases hk with rfl | rfl | rfl <;> (simp at h1 h2 ⊢) <;> omega
  · intro k hk h1 h2
    simp only [List.mem_cons, List.not_mem_nil, or_false] at hk
    rcases hk with rfl | rfl
    · simp at h1 h2 ⊢
    · simp at h1 h2 ⊢
      omega
  · intro k hk h1 h2
    simp only [List.mem_cons, List.not_mem_nil, or_false] at hk
    subst hk
    simp at h1 h2 ⊢
  · exact List.pairwise_singleton _ _

/-! ### Termination of the COMBO cascade -/

theorem filter_not_mem_append {l : List Nat} (hnd : l.Nodup) {fl : List Nat}
    {pos : Nat} (hpl : pos ∈ l) (hnm : pos ∉ fl) :
    ((l.filter fun i => decide (i ∉ fl ++ [pos])).length) + 1 =
      ((l.filter fun i => decide (i ∉ fl)).length) := by
  induction l with
  | nil => cases hpl
  | cons b r ih =>
      have hnd' := (List.nodup_cons.mp hnd).2
      have hbr := (List.nodup_cons.mp hnd).1
      rw [List.filter_cons, List.filter_cons]
      by_cases hbp : b = pos
      · subst hbp
        have hhead1 : (decide (b ∉ fl ++ [b])) = false := by simp
        have hhead2 : (decide (b ∉ fl)) = true := by simpa using hnm
        rw [hhead1, hhead2]
        have hsame : (r.filter fun i => decide (i ∉ fl ++ [b])) =
            (r.filter fun i => decide (i ∉ fl)) := by
          apply List.filter_congr
          intro x hx
          have hxb : x ≠ b := fun he => hbr (he ▸ hx)
          simp [List.mem_append, hxb]
        rw [if_neg (by simp), if_pos rfl, hsame]
        rfl
      · have hpr : pos ∈ r := by
          rcases List.mem_cons.mp hpl with h | h
          · exact absurd h.symm hbp
          · exact h
        by_cases hbf : b ∈ fl
        · have h1 : (decide (b ∉ fl ++ [pos])) = false := by
            simp [List.mem_append, hbf]
          have h2 : (decide (b ∉ fl)) = false := by simp [hbf]
          rw [h1, h2, if_neg (by simp), if_neg (by simp)]
          exact ih hnd' hpr
        · have h1 : (decide (b ∉ fl ++ [pos])) = true := by
            simp [List.mem_append, hbf, hbp]
          have h2 : (decide (b ∉ fl)) = true := by simpa using hbf
          rw [h1, h2, if_pos rfl, if_pos rfl]
          have := ih hnd' hpr
          simp only [List.length_cons]
          omega

theorem unseenCount_append {len pos : Nat} (fl : List Nat)
    (hlt : pos < len) (hnm : pos ∉ fl) :
    unseenCount len (fl ++ [pos]) + 1 = unseenCount len fl := by
  unfold unseenCount
  exact filter_not_mem_append (List.nodup_range len)
    (List.mem_range.mpr hlt) hnm

theorem comboNbStep_length (o : Player) (cStats : List Int) (st : CascState)
    (n : Neighbor) : (comboNbStep o cStats st n).board.length = st.board.length := by
  unfold comboNbStep
  split
  · split
    · split
      · split
        · exact flipOwner_length _ _ _
        · exact flipOwner_length _ _ _
      · rfl
    · rfl
  · rfl

theorem comboNbStep_fuel (o : Player) (cStats : List Int) (st : CascState)
    (n : Neighbor) : comboFuel (comboNbStep o cStats st n) ≤ comboFuel st := by
  by_cases hact : n.active = true
  · cases hcard : cardAtB st.board n.pos with
    | none => simp [comboNbStep, hact, hcard]
    | some target =>
        by_cases hc : target.owner ≠ some o ∧
            (statsOf target).getD n.oppSide 0 < cStats.getD n.side 0
        · by_cases hfl : n.pos ∈ st.flipped
          · simp only [comboNbStep, hact, if_true, hcard, if_pos hc, if_pos hfl]
            unfold comboFuel
            rw [flipOwner_length]
          · simp only [comboNbStep, hact, if_true, hcard, if_pos hc, if_neg hfl]
            unfold comboFuel
            rw [flipOwner_length]
            have hpos : n.pos < st.board.length := by
              unfold cardAtB at hcard
              cases hb : st.board[n.pos]? with
              | none => rw [hb] at hcard; exact absurd hcard (by simp)
              | some t => exact (List.getElem?_eq_some.mp hb).1
            have := unseenCount_append st.flipped hpos hfl
            simp only [List.length_append, List.length_cons, List.length_nil]
            omega
        · simp only [comboNbStep, hact, if_true, hcard, if_neg hc]
          exact Nat.le_refl _
  · have : n.active = false := Bool.eq_false_iff.mpr hact
    simp [comboNbStep, this]

theorem comboNbStep_sim (o : Player) (cStats : List Int) (st : CascState)
    (n : Neighbor) : BoardSim st.board (comboNbStep o cStats st n).board := by
  unfold comboNbStep
  split
  · split
    · split
      · split
        · exact flipOwner_sim _ _ _
        · exact flipOwner_sim _ _ _
      · exact BoardSim.refl _
    · exact BoardSim.refl _
  · exact BoardSim.refl _

theorem comboNbStep_owners (o : Player) (cStats : List Int) (st : CascState)
    (n : Neighbor) (h : OwnersSome st.board) :
    OwnersSome (comboNbStep o cStats st n).board := by
  unfold comboNbStep
  split
  · split
    · split
      · split
        · exact ownersSome_flipOwner h _ _
        · exact ownersSome_flipOwner h _ _
      · exact h
    · exact h
  · exact h

theorem comboFold_fuel (o : Player) (cStats : List Int) (l : List Neighbor) :
    ∀ st : CascState,
      comboFuel (l.foldl (comboNbStep o cStats) st) ≤ comboFuel st := by
  induction l with
  | nil => intro st; exact Nat.le_refl _
  | cons a rest ih =>
      intro st
      rw [List.foldl_cons]
      exact Nat.le_trans (ih _) (comboNbStep_fuel o cStats st a)

theorem comboFold_sim (o : Player) (cStats : List Int) (l : List Neighbor) :
    ∀ st : CascState,
      BoardSim st.board (l.foldl (comboNbStep o cStats) st).board := by
  induction l with
  | nil => intro st; exact BoardSim.refl _
  | cons a rest ih =>
      intro st
      exact (comboNbStep_sim o cStats st a).trans (ih _)

theorem comboFold_owners (o : Player) (cStats : List Int) (l : List Neighbor) :
    ∀ st : CascState, OwnersSome st.board →
      OwnersSome (l.foldl (comboNbStep o cStats) st).board := by
  induction l with
  | nil => intro st h; exact h
  | cons a rest ih =>
      intro st h
      exact ih _ (comboNbStep_owners o cStats st a h)

theorem comboProcess_fuel (o : Player) (st : CascState) (cIdx : Nat) :
    comboFuel (comboProcess o st cIdx) ≤ comboFuel st :=
  comboFold_fuel o _ (getNeighbors cIdx) st

theorem comboProcess_sim (o : Player) (st : CascState) (cIdx : Nat) :
    BoardSim st.board (comboProcess o st cIdx).board :=
  comboFold_sim o _ (getNeighbors cIdx) st

theorem comboProcess_owners (o : Player) (st : CascState) (cIdx : Nat)
    (h : OwnersSome st.board) : OwnersSome (comboProcess o st cIdx).board :=
  comboFold_owners o _ (getNeighbors cIdx) st h

/-- The combo loop drains its queue whenever it is given at least
`comboFuel` steps of fuel, and processes at most `comboFuel` entries: this
is the termination argument for the `while` loop. -/
theorem comboRun_drain (o : Player) :
    ∀ (fuel : Nat) (st : CascState), comboFuel st ≤ fuel →
      (comboRun o fuel st).1.queue = [] ∧
        (comboRun o fuel st).2.length ≤ comboFuel st := by
  intro fuel
  induction fuel with
  | zero =>
      intro st hf
      have hq : st.queue = [] := by
        unfold comboFuel at hf
        have := Nat.le_zero.mp hf
        exact List.length_eq_zero.mp (by omega)
      constructor
      · simpa [comboRun] using hq
      · simp [comboRun]
  | succ fuel ih =>
      intro st hf
      cases hq : st.queue with
      | nil =>
          constructor
          · simp [comboRun, hq]
          · simp [comboRun, hq]
      | cons c rest =>
          have hsub : comboFuel ⟨st.board, st.flipped, rest⟩ + 1 = comboFuel st := by
            unfold comboFuel
            simp only [hq, List.length_cons]
            omega
          have hst1 : comboFuel (comboProcess o ⟨st.board, st.flipped, rest⟩ c) ≤ fuel := by
            have h1 := comboProcess_fuel o ⟨st.board, st.flipped, rest⟩ c
            omega
          have hih := ih _ hst1
          constructor
          · simp only [comboRun, hq]
            exact hih.1
          · simp only [comboRun, hq, List.length_cons]
            have h1 := comboProcess_fuel o ⟨st.board, st.flipped, rest⟩ c
            omega

theorem comboRun_sim (o : Player) :
    ∀ (fuel : Nat) (st : CascState), BoardSim st.board (comboRun o fuel st).1.board := by
  intro fuel
  induction fuel with
  | zero => intro st; exact BoardSim.refl _
  | succ fuel ih =>
      intro st
      cases hq : st.queue with
      | nil => simp only [comboRun, hq]; exact BoardSim.refl _
      | cons c rest =>
          simp only [comboRun, hq]
          exact (comboProcess_sim o ⟨st.board, st.flipped, rest⟩ c).trans (ih _)

theorem comboRun_owners (o : Player) :
    ∀ (fuel : Nat) (st : CascState), OwnersSome st.board →
      OwnersSome (comboRun o fuel st).1.board := by
  intro fuel
  induction fuel with
  | zero => intro st h; exact h
  | succ fuel ih =>
      intro st h
      cases hq : st.queue with
      | nil => simpa only [comboRun, hq] using h
      | cons c rest =>
          simp only [comboRun, hq]
          exact ih _ (comboProcess_owners o ⟨st.board, st.flipped, rest⟩ c h)

/-! ### Counting and `placeCard`-level lemmas -/

theorem occupiedCount_sim {b b' : Board} (h : BoardSim b b') :
    occupiedCount b' = occupiedCount b := by
  induction h with
  | nil => rfl
  | @cons t t' r r' hh hrest ih =>
      unfold occupiedCount at ih ⊢
      rw [List.countP_cons, List.countP_cons, ih]
      have hp : t'.card.isSome = t.card.isSome := by
        have := congrArg (fun p => p.2.isSome) hh
        simpa [tileShape] using this.symm
      rw [hp]

theorem occupiedCount_set_place {b : Board} {idx : Nat} {tile : BoardTile}
    (hb : b[idx]? = some tile) (htc : tile.card = none) {t' : BoardTile}
    (ht' : t'.card.isSome = true) :
    occupiedCount (b.set idx t') = occupiedCount b + 1 := by
  unfold occupiedCount
  have hlt : idx < b.length := (List.getElem?_eq_some.mp hb).1
  rw [List.countP_set _ _ _ _ hlt]
  have hbi : b[idx] = tile := by
    have h1 := List.getElem?_eq_getElem hlt
    rw [hb] at h1
    exact (Option.some.inj h1).symm
  rw [hbi, htc]
  simp [ht']

theorem owned_split {b : Board} (h : OwnersSome b) :
    (b.countP fun t => t.card.any fun c => decide (c.owner = some Player.P1)) +
      (b.countP fun t => t.card.any fun c => decide (c.owner = some Player.P2)) =
      occupiedCount b := by
  induction b with
  | nil => rfl
  | cons t r ih =>
      have hr : OwnersSome r := fun t' ht' => h t' (List.mem_cons_of_mem _ ht')
      have hihr := ih hr
      unfold occupiedCount at hihr ⊢
      rw [List.countP_cons, List.countP_cons, List.countP_cons]
      cases hc : t.card with
      | none =>
          simp [hc]
          omega
      | some c =>
          have ho := h t (List.mem_cons_self t r) c hc
          obtain ⟨ow, how⟩ := Option.isSome_iff_exists.mp ho
          cases ow with
          | P1 =>
              simp [hc, how]
              omega
          | P2 =>
              simp [hc, how]
              omega

theorem ownersSome_set {b : Board} (h : OwnersSome b) {t' : BoardTile}
    (h' : ∀ c, t'.card = some c → c.owner.isSome = true) (idx : Nat) :
    OwnersSome (b.set idx t') := by
  intro t ht c hc
  rcases List.mem_or_eq_of_mem_set ht with hm | he
  · exact h t hm c hc
  · subst he
    exact h' c hc

theorem sim_card_fields {b b' : Board} (h : BoardSim b b') (pos : Nat) {c : Card}
    (hc : cardAtB b pos = some c) :
    ∃ c', cardAtB b' pos = some c' ∧ c'.id = c.id ∧ c'.level = c.level ∧
      c'.name = c.name ∧ c'.stats = c.stats ∧ c'.modifiedStats = c.modifiedStats ∧
      c'.attr = c.attr := by
  have hg := h.get pos
  cases hb : b[pos]? with
  | none =>
      simp only [cardAtB, hb] at hc
      exact Option.noConfusion hc
  | some t =>
      simp only [cardAtB, hb] at hc
      rw [hb] at hg
      cases hb' : b'[pos]? with
      | none => rw [hb'] at hg; exact absurd hg (by simp)
      | some t' =>
          rw [hb'] at hg
          have hsh : tileShape t' = tileShape t := by simpa using hg
          have hcards := congrArg (fun p => p.2) hsh
          simp only [tileShape, hc] at hcards
          cases hc' : t'.card with
          | none => rw [hc'] at hcards; exact absurd hcards (by simp)
          | some c' =>
              rw [hc'] at hcards
              rw [Option.map_some', Option.map_some'] at hcards
              have hflds := Option.some.inj hcards
              simp only [Card.mk.injEq] at hflds
              have hcb : cardAtB b' pos = some c' := by
                simp only [cardAtB, hb', hc']
              exact ⟨c', hcb, hflds.1, hflds.2.1, hflds.2.2.1, hflds.2.2.2.1,
                hflds.2.2.2.2.1, hflds.2.2.2.2.2.1⟩

theorem applySame_sim (se : Bool) (ms : List Nat) (o : Player) (st : CascState) :
    BoardSim st.board (applySame se ms o st).1.board := by
  unfold applySame
  split
  · exact seedFold_sim o ms st
  · exact BoardSim.refl _

theorem applySame_owners (se : Bool) (ms : List Nat) (o : Player) (st : CascState)
    (h : OwnersSome st.board) : OwnersSome (applySame se ms o st).1.board := by
  unfold applySame
  split
  · exact seedFold_owners o ms st h
  · exact h

theorem applyPlus_sim (groups : List (List Nat)) (o : Player) (st : CascState) :
    BoardSim st.board (applyPlus groups o st).1.board :=
  plusFold_sim o groups (st, false)

theorem applyPlus_owners (groups : List (List Nat)) (o : Player) (st : CascState)
    (h : OwnersSome st.board) : OwnersSome (applyPlus groups o st).1.board :=
  plusFold_owners o groups (st, false) h

theorem specialsAndBasic_sim (gs : GameSettings) (b0 : Board) (stats : List Int)
    (idx : Nat) (o : Player) :
    BoardSim b0 (specialsAndBasic gs b0 stats idx o).1.board := by
  simp only [specialsAndBasic, applyBasic]
  exact ((applySame_sim _ _ _ ⟨b0, [], []⟩).trans (applyPlus_sim _ _ _)).trans
    (basicFold_sim stats o (getNeighbors idx) _)

theorem specialsAndBasic_owners (gs : GameSettings) (b0 : Board) (stats : List Int)
    (idx : Nat) (o : Player) (h : OwnersSome b0) :
    OwnersSome (specialsAndBasic gs b0 stats idx o).1.board := by
  simp only [specialsAndBasic, applyBasic]
  exact basicFold_owners stats o (getNeighbors idx) _
    (applyPlus_owners _ _ _ (applySame_owners _ _ _ ⟨b0, [], []⟩ h))

/-- Every way `placeCard` can return a value: either the guard of App.tsx
line 485 rejected the call (state unchanged, no events), or the placement
really happened. -/
theorem placeCard_inv (gs : GameSettings) (s : GState) (idx hIdx : Nat)
    (o : Player) {u : GState} {evs : List Effect}
    (h : placeCard gs s idx hIdx o = some (u, evs)) :
    (u = s ∧ evs = []) ∨
    (∃ tile card, s.board[idx]? = some tile ∧ tile.card = none ∧ s.turn = o ∧
      (handOf s o)[hIdx]? = some card) := by
  cases hb : s.board[idx]? with
  | none =>
      simp only [placeCard, hb] at h
      exact Option.noConfusion h
  | some tile =>
      simp only [placeCard, hb] at h
      by_cases hg : tile.card.isSome = true ∨ s.turn ≠ o
      · rw [if_pos hg] at h
        simp only [Option.some.injEq, Prod.mk.injEq] at h
        exact Or.inl ⟨h.1.symm, h.2.symm⟩
      · rw [if_neg hg] at h
        push_neg at hg
        cases hh : (handOf s o)[hIdx]? with
        | none => rw [hh] at h; exact Option.noConfusion h
        | some card =>
            exact Or.inr ⟨tile, card, rfl,
              Option.not_isSome_iff_eq_none.mp (by simp [hg.1]), hg.2, rfl⟩

/-- The successful branch of `placeCard`: one card leaves the mover's hand,
one tile fills, owners stay non-null, the turn flips, and every previously
placed card keeps its identity, base stats and `effectiveStats` snapshot. -/
theorem placeCard_success_spec (gs : GameSettings) (s : GState) {idx hIdx : Nat}
    {o : Player} {tile : BoardTile} {card : Card}
    (hb : s.board[idx]? = some tile) (htc : tile.card = none) (hturn : s.turn = o)
    (hh : (handOf s o)[hIdx]? = some card) :
    ∃ u evs, placeCard gs s idx hIdx o = some (u, evs) ∧
      (handOf u o).length + 1 = (handOf s o).length ∧
      handOf u (other o) = handOf s (other o) ∧
      u.turn = other o ∧
      occupiedCount u.board = occupiedCount s.board + 1 ∧
      (OwnersSome s.board → OwnersSome u.board) ∧
      (∀ pos c, cardAtB s.board pos = some c → ∃ c', cardAtB u.board pos = some c' ∧
        c'.id = c.id ∧ c'.stats = c.stats ∧ c'.modifiedStats = c.modifiedStats ∧
        c'.attr = c.attr) ∧
      (∃ c', cardAtB u.board idx = some c' ∧
        c'.modifiedStats = some (calculateStats card tile.element) ∧
        c'.stats = card.stats ∧ c'.id = card.id) := by
  have hgu : ¬ (tile.card.isSome = true ∨ s.turn ≠ o) := by
    push_neg
    exact ⟨by simp [htc], hturn⟩
  have hlen : idx < s.board.length := (List.getElem?_eq_some.mp hb).1
  have hIdxlt : hIdx < (handOf s o).length := (List.getElem?_eq_some.mp hh).1
  set stats := calculateStats card tile.element with hstats
  set b0 := s.board.set idx
    { tile with card := some { card with owner := some o, modifiedStats := some stats } } with hb0
  set r := specialsAndBasic gs b0 stats idx o with hr
  set fin := (comboRun o (comboFuel r.1) r.1).1 with hfin
  set u : GState :=
    { board := fin.board,
      p1Hand := if o = .P1 then s.p1Hand.eraseIdx hIdx else s.p1Hand,
      p2Hand := if o = .P2 then s.p2Hand.eraseIdx hIdx else s.p2Hand,
      turn := other o } with hu
  have heq : placeCard gs s idx hIdx o =
      some (u,
        (if r.2.1 then [Effect.SAME] else []) ++
          (if r.2.2 then [Effect.PLUS] else []) ++
          List.replicate (fin.flipped.length - r.1.flipped.length) Effect.COMBO) := by
    simp only [placeCard, hb, if_neg hgu, hh]
  have hsim : BoardSim b0 fin.board :=
    (specialsAndBasic_sim gs b0 stats idx o).trans (comboRun_sim o _ _)
  have hub : u.board = fin.board := rfl
  refine ⟨u, _, heq, ?_, ?_, ?_, ?_, ?_, ?_, ?_⟩
  · cases o with
    | P1 =>
        show (if Player.P1 = Player.P1 then s.p1Hand.eraseIdx hIdx
              else s.p1Hand).length + 1 = (handOf s Player.P1).length
        simp only [handOf] at hIdxlt
        rw [if_pos rfl, List.length_eraseIdx, if_pos hIdxlt]
        simp only [handOf]
        omega
    | P2 =>
        show (if Player.P2 = Player.P2 then s.p2Hand.eraseIdx hIdx
              else s.p2Hand).length + 1 = (handOf s Player.P2).length
        simp only [handOf] at hIdxlt
        rw [if_pos rfl, List.length_eraseIdx, if_pos hIdxlt]
        simp only [handOf]
        omega
  · cases o with
    | P1 =>
        show (if Player.P1 = Player.P2 then s.p2Hand.eraseIdx hIdx else s.p2Hand) =
          handOf s (other Player.P1)
        simp [handOf, other]
    | P2 =>
        show (if Player.P2 = Player.P1 then s.p1Hand.eraseIdx hIdx else s.p1Hand) =
          handOf s (other Player.P2)
        simp [handOf, other]
  · rfl
  · rw [occupiedCount_sim hsim]
    exact occupiedCount_set_place hb htc (by simp)
  · intro hown
    refine comboRun_owners o _ _ (specialsAndBasic_owners gs b0 stats idx o ?_)
    refine ownersSome_set hown ?_ idx
    intro c hc
    simp only [Option.some.injEq] at hc
    rw [← hc]
    rfl
  · intro pos c hc
    have hne : pos ≠ idx := by
      intro he
      subst he
      simp only [cardAtB, hb, htc] at hc
      exact Option.noConfusion hc
    have hb0pos : cardAtB b0 pos = some c := by
      unfold cardAtB
      rw [List.getElem?_set_ne (fun he => hne he.symm)]
      simpa [cardAtB] using hc
    obtain ⟨c', hc', h1, h2, h3, h4, h5, h6⟩ := sim_card_fields hsim pos hb0pos
    exact ⟨c', hc', h1, h4, h5, h6⟩
  · have hb0idx : cardAtB b0 idx =
        some { card with owner := some o, modifiedStats := some stats } := by
      unfold cardAtB
      rw [List.getElem?_set_self (by simpa using hlen)]
    obtain ⟨c', hc', h1, h2, h3, h4, h5, h6⟩ := sim_card_fields hsim idx hb0idx
    exact ⟨c', hc', by simp [h5], by simp [h4], by simp [h1]⟩

/-! ### The round invariant -/

/-- The quantities the spec tracks through a round: the total of cards in
hands and on the board, and the non-null ownership of board cards. -/
def RoundInv (s : GState) : Prop :=
  s.p1Hand.length + s.p2Hand.length + occupiedCount s.board = 10 ∧
    OwnersSome s.board

theorem initRound_inv {s : GState} (h : InitRound s) : RoundInv s := by
  obtain ⟨h1, h2, h3⟩ := h
  constructor
  · have hocc : occupiedCount s.board = 0 := by
      unfold occupiedCount
      rw [List.countP_eq_zero]
      intro t ht
      simp [h3 t ht]
    omega
  · intro t ht c hc
    rw [h3 t ht] at hc
    exact Option.noConfusion hc

theorem placeCard_preserves_inv (gs : GameSettings) {s u : GState}
    {idx hIdx : Nat} {o : Player} {evs : List Effect}
    (h : placeCard gs s idx hIdx o = some (u, evs)) (hs : RoundInv s) :
    RoundInv u := by
  rcases placeCard_inv gs s idx hIdx o h with ⟨he, _⟩ | ⟨tile, card, hb, htc, hturn, hh⟩
  · rw [he]
    exact hs
  · obtain ⟨u', evs', heq, hlen, hother, hturn', hocc, howner, _, _⟩ :=
      placeCard_success_spec gs s hb htc hturn hh
    have hue : u' = u := by
      rw [heq] at h
      exact congrArg Prod.fst (Option.some.inj h)
    subst hue
    constructor
    · have hsum := hs.1
      cases o with
      | P1 =>
          simp only [handOf, other] at hlen hother
          have h2 := congrArg List.length hother
          omega
      | P2 =>
          simp only [handOf, other] at hlen hother
          have h2 := congrArg List.length hother
          omega
    · exact howner hs.2

theorem reach_inv (gs : GameSettings) {s0 s : GState} (h0 : InitRound s0)
    (hr : Reach gs s0 s) : RoundInv s := by
  induction hr with
  | refl => exact initRound_inv h0
  | step _ hstep ih => exact placeCard_preserves_inv _ hstep ih

theorem scores_sum {s : GState} (h : OwnersSome s.board) :
    scoreP1 s + scoreP2 s =
      s.p1Hand.length + s.p2Hand.length + occupiedCount s.board := by
  unfold scoreP1 scoreP2
  have := owned_split h
  omega

theorem reach_cards (gs : GameSettings) {s t : GState} (hr : Reach gs s t) :
    ∀ pos c, cardAtB s.board pos = some c →
      ∃ c', cardAtB t.board pos = some c' ∧ c'.id = c.id ∧ c'.stats = c.stats ∧
        c'.modifiedStats = c.modifiedStats ∧ c'.attr = c.attr := by
  induction hr with
  | refl => intro pos c hc; exact ⟨c, hc, rfl, rfl, rfl, rfl⟩
  | @step t u idx hIdx o evs hr hstep ih =>
      intro pos c hc
      obtain ⟨c', hc', h1, h2, h3, h4⟩ := ih pos c hc
      rcases placeCard_inv _ _ _ _ _ hstep with ⟨he, _⟩ | ⟨tile, card, hb, htc, hturn, hh⟩
      · rw [he]
        exact ⟨c', hc', h1, h2, h3, h4⟩
      · obtain ⟨u', evs', heq, _, _, _, _, _, hpres, _⟩ :=
          placeCard_success_spec gs t hb htc hturn hh
        have hue : u' = u := by
          rw [heq] at hstep
          exact congrArg Prod.fst (Option.some.inj hstep)
        subst hue
        obtain ⟨c'', hc'', g1, g2, g3, g4⟩ := hpres pos c' hc'
        exact ⟨c'', hc'', g1.trans h1, g2.trans h2, g3.trans h3, g4.trans h4⟩

/-! ### Membership lemmas for the collection passes -/

theorem mem_neighborVals {b : Board} {stats : List Int} {idx : Nat} {x : NbVal} :
    x ∈ neighborVals b stats idx ↔
      ∃ n ∈ getNeighbors idx, n.active = true ∧
        ∃ t c, b[n.pos]? = some t ∧ t.card = some c ∧
          x = ⟨n.pos, stats.getD n.side 0, (statsOf c).getD n.oppSide 0, c.owner⟩ := by
  unfold neighborVals
  rw [List.mem_filterMap]
  constructor
  · rintro ⟨n, hn, hsome⟩
    by_cases hact : n.active = true
    · rw [if_pos hact] at hsome
      cases hb : b[n.pos]? with
      | none =>
          simp only [hb] at hsome
          exact Option.noConfusion hsome
      | some t =>
          simp only [hb] at hsome
          cases hc : t.card with
          | none =>
              simp only [hc, Option.map_none'] at hsome
              exact Option.noConfusion hsome
          | some c =>
              simp only [hc, Option.map_some', Option.some.injEq] at hsome
              exact ⟨n, hn, hact, t, c, hb, hc, hsome.symm⟩
    · rw [if_neg hact] at hsome
      exact Option.noConfusion hsome
  · rintro ⟨n, hn, hact, t, c, hb, hc, hx⟩
    refine ⟨n, hn, ?_⟩
    rw [if_pos hact]
    simp only [hb, hc, Option.map_some', Option.some.injEq]
    exact hx.symm

theorem neighborVals_card {b : Board} {stats : List Int} {idx : Nat} {x : NbVal}
    (hx : x ∈ neighborVals b stats idx) :
    (cardAtB b x.pos).isSome = true ∧ ownerAtB b x.pos = x.nbOwner := by
  obtain ⟨n, hn, hact, t, c, hb, hc, hxe⟩ := mem_neighborVals.mp hx
  subst hxe
  constructor
  · simp [cardAtB, hb, hc]
  · simp [ownerAtB, hb, hc]

theorem mem_sameMatchesOf {se : Bool} {nv : List NbVal} {p : Nat} :
    p ∈ sameMatchesOf se nv ↔
      se = true ∧ ∃ x ∈ nv, x.myVal = x.oppVal ∧ x.pos = p := by
  unfold sameMatchesOf
  by_cases hse : se = true
  · rw [if_pos (by simpa using hse)]
    simp only [List.mem_map, List.mem_filter, decide_eq_true_eq]
    constructor
    · rintro ⟨x, ⟨hx, hval⟩, hpos⟩
      exact ⟨hse, x, hx, hval, hpos⟩
    · rintro ⟨-, x, hx, hval, hpos⟩
      exact ⟨x, ⟨hx, hval⟩, hpos⟩
  · rw [if_neg (by simpa using hse)]
    simp [hse]

theorem mem_emptyCells {b : Board} {i : Nat} :
    i ∈ emptyCells b ↔ ∃ t, b[i]? = some t ∧ t.card = none := by
  unfold emptyCells
  rw [List.mem_filterMap]
  constructor
  · rintro ⟨⟨j, t⟩, hmem, hif⟩
    by_cases hc : t.card.isNone = true
    · rw [if_pos hc] at hif
      have hj : j = i := Option.some.inj hif
      subst hj
      exact ⟨t, List.mk_mem_enum_iff_getElem?.mp hmem,
        Option.isNone_iff_eq_none.mp hc⟩
    · rw [if_neg hc] at hif
      exact Option.noConfusion hif
  · rintro ⟨t, hb, hc⟩
    exact ⟨(i, t), List.mk_mem_enum_iff_getElem?.mpr hb, by simp [hc]⟩

theorem mem_candidateMoves {board : Board} {hand : List Card}
    {gs : GameSettings} {m : Move} :
    m ∈ candidateMoves board hand gs ↔
      m.boardIdx ∈ emptyCells board ∧ m.handIdx < hand.length ∧
        ∃ card, hand[m.handIdx]? = some card ∧
          m.score = evaluateMove m.boardIdx card board .P2 gs := by
  unfold candidateMoves
  rw [List.mem_flatMap]
  constructor
  · rintro ⟨cellIdx, hcell, hm⟩
    rw [List.mem_map] at hm
    obtain ⟨⟨h, card⟩, hmem, he⟩ := hm
    have hg := List.mk_mem_enum_iff_getElem?.mp hmem
    have hlt : h < hand.length := (List.getElem?_eq_some_iff.mp hg).1
    subst he
    exact ⟨hcell, hlt, card, hg, rfl⟩
  · rintro ⟨hcell, hlt, card, hcard, hscore⟩
    refine ⟨m.boardIdx, hcell, ?_⟩
    rw [List.mem_map]
    refine ⟨(m.handIdx, card), List.mk_mem_enum_iff_getElem?.mpr hcard, ?_⟩
    cases m with
    | mk bi hi sc =>
        simp only at hscore ⊢
        rw [hscore]

/-! ### Concrete fixtures used by witnesses and counterexamples -/

/-- A board card with its effective-stats snapshot already taken. -/
def mkCard (i : Nat) (st : List Int) (o : Player) : Card :=
  { id := i, level := 1, name := "c", stats := st, modifiedStats := some st,
    attr := none, owner := some o }

/-- An unoccupied, element-free tile. -/
def emptyTile : BoardTile := { card := none, element := none }

/-- All special rules on, CPU difficulty MID. -/
def gsAllOn : GameSettings :=
  { elementalEnabled := true, sameEnabled := true, plusEnabled := true,
    cpuDifficulty := .MID, pvpMode := false }

/-- Same settings with EXPERT difficulty. -/
def gsExpert : GameSettings := { gsAllOn with cpuDifficulty := .EXPERT }

/-- Board for the PLUS scenario: tile 1 holds an opposing card whose down
value is 4; tile 3 holds the mover's own card whose right value is 5. -/
def plusBoard : Board :=
  [emptyTile, { card := some (mkCard 10 [9, 9, 9, 4] .P2), element := none },
   emptyTile, { card := some (mkCard 11 [9, 9, 5, 9] .P1), element := none },
   emptyTile, emptyTile, emptyTile, emptyTile, emptyTile]

/-- The card placed at tile 4 in the PLUS scenario: up 3 (3+4=7 versus tile
1) and left 2 (2+5=7 versus tile 3) give two neighbors with equal sums but
no SAME match. -/
def plusHandCard : Card :=
  { id := 1, level := 1, name := "a", stats := [3, 2, 1, 1],
    modifiedStats := none, attr := none, owner := some .P1 }

/-- The game state for the PLUS scenario. -/
def plusState : GState :=
  { board := plusBoard, p1Hand := [plusHandCard], p2Hand := [], turn := .P1 }

/-- The board of the PLUS scenario after the card has been written to tile
4 (the `nextBoard` of App.tsx line 489). -/
def plusB0 : Board :=
  plusBoard.set 4
    { card :=
        some { plusHandCard with
               owner := some Player.P1,
               modifiedStats := some (calculateStats plusHandCard none) },
      element := none }

/-- Board for the SAME+PLUS double-seed scenario: both neighbors face the
placed card with value 5 on both sides, so SAME (two matches) and PLUS
(two sums of 10) both fire on the same two tiles. -/
def dupBoard : Board :=
  [emptyTile, { card := some (mkCard 10 [9, 9, 9, 5] .P2), element := none },
   emptyTile, { card := some (mkCard 11 [9, 9, 5, 9] .P2), element := none },
   emptyTile, emptyTile, emptyTile, emptyTile, emptyTile]

/-- The card placed at tile 4 in the double-seed scenario (up 5, left 5). -/
def dupHandCard : Card :=
  { id := 1, level := 1, name := "a", stats := [5, 5, 1, 1],
    modifiedStats := none, attr := none, owner := some .P1 }

/-- The double-seed board after the card has been written to tile 4. -/
def dupB0 : Board :=
  dupBoard.set 4
    { card :=
        some { dupHandCard with
               owner := some Player.P1,
               modifiedStats := some (calculateStats dupHandCard none) },
      element := none }

/-- Board for the basic-capture scenario (spec Scenario A): tile 1 holds an
opposing card whose down value is 3. -/
def basicBoard : Board :=
  [emptyTile, { card := some (mkCard 10 [9, 9, 9, 3] .P2), element := none },
   emptyTile, emptyTile, emptyTile, emptyTile, emptyTile, emptyTile, emptyTile]

/-- The basic-scenario board after a `[5,5,5,5]` card is written to tile 4. -/
def basicB0 : Board :=
  basicBoard.set 4
    { card := some (mkCard 1 [5, 5, 5, 5] .P1), element := none }

/-- A fresh round start: two 5-card hands, empty board. -/
def csInit : GState :=
  { board := List.replicate 9 emptyTile,
    p1Hand := [mkCard 1 [1, 1, 1, 1] .P1, mkCard 2 [1, 1, 1, 1] .P1,
               mkCard 3 [1, 1, 1, 1] .P1, mkCard 4 [1, 1, 1, 1] .P1,
               mkCard 5 [1, 1, 1, 1] .P1],
    p2Hand := [mkCard 6 [1, 1, 1, 1] .P2, mkCard 7 [1, 1, 1, 1] .P2,
               mkCard 8 [1, 1, 1, 1] .P2, mkCard 9 [1, 1, 1, 1] .P2,
               mkCard 10 [1, 1, 1, 1] .P2],
    turn := .P1 }

/-! ### Claim theorems -/

theorem mem_plusGroupsOf {pe : Bool} {nv : List NbVal} {g : List Nat}
    (hg : g ∈ plusGroupsOf pe nv) : ∀ p ∈ g, ∃ x ∈ nv, x.pos = p := by
  unfold plusGroupsOf at hg
  by_cases hpe : pe = true
  · rw [if_pos (by simpa using hpe)] at hg
    rw [List.mem_map] at hg
    obtain ⟨s, _, he⟩ := hg
    subst he
    intro p hp
    rw [List.mem_map] at hp
    obtain ⟨x, hx, he⟩ := hp
    exact ⟨x, List.mem_of_mem_filter hx, he⟩
  · rw [if_neg (by simpa using hpe)] at hg
    cases hg

/-- C1.  When `sameEnabled` holds and at least two occupied neighbors match
the placed card's facing values exactly, the SAME block of `placeCard`
fires: it reassigns every matched neighbor's owner to the placing player
(a no-op on the matched neighbors the player already owns), changes no
other field of any card (`BoardSim`), touches no other tile, and seeds
every matched neighbor — opponent- or own-owned — into the combo queue, in
neighbor order.  With SAME disabled or fewer than two matches the block
does nothing.  `sameMatchesOf`/`applySame` are the pieces of `placeCard`
(App.tsx lines 501–535), started on the freshly placed board `b` with
empty `flippedIndices` and `comboQueue`. -/
theorem same_rule_spec (se : Bool) (b : Board) (stats : List Int) (idx : Nat)
    (o : Player) :
    (∀ p, p ∈ sameMatchesOf se (neighborVals b stats idx) ↔
      se = true ∧ ∃ x ∈ neighborVals b stats idx, x.myVal = x.oppVal ∧ x.pos = p) ∧
    (2 ≤ (sameMatchesOf se (neighborVals b stats idx)).length →
      (applySame se (sameMatchesOf se (neighborVals b stats idx)) o ⟨b, [], []⟩).2 = true ∧
      (applySame se (sameMatchesOf se (neighborVals b stats idx)) o ⟨b, [], []⟩).1.queue =
        sameMatchesOf se (neighborVals b stats idx) ∧
      (∀ p ∈ sameMatchesOf se (neighborVals b stats idx),
        ownerAtB (applySame se (sameMatchesOf se (neighborVals b stats idx)) o ⟨b, [], []⟩).1.board p
          = some o) ∧
      BoardSim b (applySame se (sameMatchesOf se (neighborVals b stats idx)) o ⟨b, [], []⟩).1.board ∧
      (∀ q, q ∉ sameMatchesOf se (neighborVals b stats idx) →
        (applySame se (sameMatchesOf se (neighborVals b stats idx)) o ⟨b, [], []⟩).1.board[q]? =
          b[q]?)) ∧
    (¬ 2 ≤ (sameMatchesOf se (neighborVals b stats idx)).length →
      applySame se (sameMatchesOf se (neighborVals b stats idx)) o ⟨b, [], []⟩ =
        (⟨b, [], []⟩, false)) := by
  refine ⟨fun p => mem_sameMatchesOf, ?_, ?_⟩
  · intro h2
    have hse : se = true := by
      cases hb : se with
      | false =>
          rw [hb] at h2
          simp [sameMatchesOf] at h2
      | true => rfl
    have hguard : se = true ∧ 2 ≤ (sameMatchesOf se (neighborVals b stats idx)).length :=
      ⟨hse, h2⟩
    refine ⟨?_, ?_, ?_, ?_, ?_⟩
    · simp only [applySame, if_pos hguard]
    · simp only [applySame, if_pos hguard]
      rw [seedFold_queue]
      rfl
    · intro p hp
      simp only [applySame, if_pos hguard]
      obtain ⟨-, x, hx, -, hxp⟩ := mem_sameMatchesOf.mp hp
      have hcard := (neighborVals_card hx).1
      rw [hxp] at hcard
      exact seedFold_owner o _ hp _ hcard
    · simp only [applySame, if_pos hguard]
      exact seedFold_sim o _ ⟨b, [], []⟩
    · intro q hq
      simp only [applySame, if_pos hguard]
      exact seedFold_get_ne o _ hq _
  · intro h2
    have hng : ¬ (se = true ∧ 2 ≤ (sameMatchesOf se (neighborVals b stats idx)).length) :=
      fun hg => h2 hg.2
    simp only [applySame, if_neg hng]

/-- Witness for C1 on the double-match scenario: placing `[5,5,1,1]` at
tile 4 with opposing cards facing value 5 at tiles 1 and 3 triggers SAME,
captures both and seeds `[1, 3]`. -/
theorem same_rule_spec_witness :
    2 ≤ (sameMatchesOf true (neighborVals dupB0 (calculateStats dupHandCard none) 4)).length ∧
    (applySame true (sameMatchesOf true (neighborVals dupB0 (calculateStats dupHandCard none) 4))
      .P1 ⟨dupB0, [], []⟩).1.queue = [1, 3] ∧
    ownerAtB (applySame true (sameMatchesOf true (neighborVals dupB0 (calculateStats dupHandCard none) 4))
      .P1 ⟨dupB0, [], []⟩).1.board 1 = some .P1 := by
  have h := same_rule_spec true dupB0 (calculateStats dupHandCard none) 4 .P1
  refine ⟨by decide, ?_, ?_⟩
  · rw [(h.2.1 (by decide)).2.1]
    decide
  · exact (h.2.1 (by decide)).2.2.1 1 (by decide)

/-- C2 counterexample.  Placing `[3,2,1,1]` at tile 4 of `plusBoard` gives
two neighbors with sum 7: tile 1 (opponent-owned) and tile 3 (owned by the
placing player).  The PLUS rule fires and the combo queue after the
SAME/PLUS/basic phases of `placeCard` is `[1, 3]` — the own-owned tile 3 is
seeded too, contradicting the claim that exactly the opponent-owned members
are seeded.  (The live `placeCard` run emits exactly one PLUS event on this
state, confirming this is the executed path.) -/
theorem plus_seeds_own_cx :
    ownerAtB plusB0 3 = some Player.P1 ∧
    plusGroupsOf true (neighborVals plusB0 (calculateStats plusHandCard none) 4) = [[1, 3]] ∧
    (specialsAndBasic gsAllOn plusB0 (calculateStats plusHandCard none) 4 .P1).1.queue = [1, 3] ∧
    (placeCard gsAllOn plusState 4 0 .P1).map (fun r => r.2) = some [Effect.PLUS] := by
  refine ⟨by decide, by decide, by decide, by decide⟩

/-- C2 amended.  When `plusEnabled` holds, `placeCard` groups the occupied
neighbors by `myValue + theirValue`; every group of at least two neighbors
fires the PLUS rule independently of SAME (`applyPlus` never consults the
SAME flag).  Exactly the opponent-owned members of each firing group are
captured (ownership moves to the placing player; members already owned by
the player are untouched), but ALL members of each firing group —
opponent- and own-owned alike — are seeded into the combo queue
(`trigMembers`); no stats change and no other tile is touched. -/
theorem plus_rule_spec (pe : Bool) (b : Board) (stats : List Int) (idx : Nat)
    (o : Player) :
    (applyPlus (plusGroupsOf pe (neighborVals b stats idx)) o ⟨b, [], []⟩).1.queue =
      trigMembers (plusGroupsOf pe (neighborVals b stats idx)) ∧
    ((applyPlus (plusGroupsOf pe (neighborVals b stats idx)) o ⟨b, [], []⟩).2 = true ↔
      ∃ g ∈ plusGroupsOf pe (neighborVals b stats idx), 2 ≤ g.length) ∧
    (∀ p ∈ trigMembers (plusGroupsOf pe (neighborVals b stats idx)),
      ownerAtB (applyPlus (plusGroupsOf pe (neighborVals b stats idx)) o ⟨b, [], []⟩).1.board p
        = some o) ∧
    BoardSim b (applyPlus (plusGroupsOf pe (neighborVals b stats idx)) o ⟨b, [], []⟩).1.board ∧
    (∀ q, q ∉ trigMembers (plusGroupsOf pe (neighborVals b stats idx)) →
      (applyPlus (plusGroupsOf pe (neighborVals b stats idx)) o ⟨b, [], []⟩).1.board[q]? =
        b[q]?) := by
  refine ⟨?_, ?_, ?_, ?_, ?_⟩
  · unfold applyPlus
    rw [plusFold_queue]
    rfl
  · unfold applyPlus
    rw [plusFold_flag]
    simp only [Bool.false_or, List.any_eq_true, decide_eq_true_eq]
  · intro p hp
    have hp' := hp
    unfold trigMembers at hp'
    rcases List.mem_flatten.mp hp' with ⟨g, hgf, hpg⟩
    have hgmem : g ∈ plusGroupsOf pe (neighborVals b stats idx) :=
      List.mem_of_mem_filter hgf
    obtain ⟨x, hx, hxp⟩ := mem_plusGroupsOf hgmem p hpg
    have hcard := (neighborVals_card hx).1
    rw [hxp] at hcard
    exact plusFold_owner o _ hp _ hcard
  · exact applyPlus_sim _ o ⟨b, [], []⟩
  · intro q hq
    unfold applyPlus
    exact plusFold_get_ne o _ hq _

/-- Witness for the amended C2 on the PLUS scenario: the group `[1, 3]`
fires, seeds both members, captures the opponent-owned tile 1, and leaves
tile 3 owned by the player as before. -/
theorem plus_rule_spec_witness :
    (applyPlus (plusGroupsOf true (neighborVals plusB0 (calculateStats plusHandCard none) 4))
        .P1 ⟨plusB0, [], []⟩).1.queue =
      trigMembers (plusGroupsOf true (neighborVals plusB0 (calculateStats plusHandCard none) 4)) ∧
    ownerAtB (applyPlus (plusGroupsOf true
        (neighborVals plusB0 (calculateStats plusHandCard none) 4))
        .P1 ⟨plusB0, [], []⟩).1.board 1 = some .P1 := by
  have h := plus_rule_spec true plusB0 (calculateStats plusHandCard none) 4 .P1
  exact ⟨h.1, h.2.2.1 1 (by decide)⟩

/-- C3.  The basic-rule block of `placeCard` (App.tsx lines 553–567,
`applyBasic`) runs after SAME and PLUS on the board they produced; on that
board a neighbor is captured exactly when it is occupied, currently
opponent-owned (equivalently: opponent-owned and not already captured by
SAME/PLUS, since those only ever assign ownership to the placing player),
and the placed card's facing value strictly exceeds its opposite value.
It never touches the combo queue (basic captures are not combo-seeded),
changes no stats, and leaves non-neighbor tiles untouched. -/
theorem basic_rule_spec (stats : List Int) (idx : Nat) (o : Player)
    (st : CascState) :
    (applyBasic stats idx o st).queue = st.queue ∧
    (∀ n ∈ getNeighbors idx, n.active = true → ∀ target,
      cardAtB st.board n.pos = some target →
        cardAtB (applyBasic stats idx o st).board n.pos =
          some (if target.owner ≠ some o ∧
                  (statsOf target).getD n.oppSide 0 < stats.getD n.side 0
                then { target with owner := some o } else target)) ∧
    (∀ q, (∀ n ∈ getNeighbors idx, n.active = true → n.pos ≠ q) →
      (applyBasic stats idx o st).board[q]? = st.board[q]?) ∧
    BoardSim st.board (applyBasic stats idx o st).board := by
  refine ⟨basicFold_queue stats o _ st, ?_, ?_, basicFold_sim stats o _ st⟩
  · intro n hn hact target hcard
    exact basicFold_at stats o (getNeighbors idx) st n target hn hact
      (getNeighbors_pairwise idx) hcard
  · intro q hq
    exact basicFold_get_ne stats o (getNeighbors idx) hq st

/-- Witness for C3 on spec Scenario A: attacker `[5,5,5,5]` at tile 4, the
opposing card at tile 1 shows 3 downward, so the up-neighbor branch flips
tile 1 to the attacker, and the queue stays empty. -/
theorem basic_rule_spec_witness :
    (applyBasic [5, 5, 5, 5] 4 .P1 ⟨basicB0, [], []⟩).queue = [] ∧
    cardAtB (applyBasic [5, 5, 5, 5] 4 .P1 ⟨basicB0, [], []⟩).board 1 =
      some { mkCard 10 [9, 9, 9, 3] .P2 with owner := some Player.P1 } := by
  have h := basic_rule_spec [5, 5, 5, 5] 4 .P1 ⟨basicB0, [], []⟩
  constructor
  · exact h.1
  · have h2 := h.2.1 ⟨1, 0, 3, true⟩ (by decide) (by decide)
      (mkCard 10 [9, 9, 9, 3] .P2) (by decide)
    rw [h2]
    decide

/-- C4 counterexample.  On the double-seed scenario SAME and PLUS both fire
on tiles 1 and 3, so `placeCard`'s seed queue is `[1, 3, 1, 3]` and the
COMBO `while` loop processes tiles 1 and 3 twice each (its trace is
`[1, 3, 1, 3]`), refuting the claim that the cascade visits each tile at
most once: the `flippedIndices` guard prevents duplicate pushes by the
cascade itself but does not deduplicate the SAME/PLUS seeds. -/
theorem combo_double_visit_cx :
    (specialsAndBasic gsAllOn dupB0 (calculateStats dupHandCard none) 4 .P1).1.queue =
      [1, 3, 1, 3] ∧
    (comboRun .P1
        (comboFuel (specialsAndBasic gsAllOn dupB0 (calculateStats dupHandCard none) 4 .P1).1)
        (specialsAndBasic gsAllOn dupB0 (calculateStats dupHandCard none) 4 .P1).1).2 =
      [1, 3, 1, 3] ∧
    ¬ (comboRun .P1
        (comboFuel (specialsAndBasic gsAllOn dupB0 (calculateStats dupHandCard none) 4 .P1).1)
        (specialsAndBasic gsAllOn dupB0 (calculateStats dupHandCard none) 4 .P1).1).2.Nodup := by
  refine ⟨by decide, by decide, by decide⟩

/-- C4 amended.  The COMBO cascade always halts: run with `comboFuel`
(the fuel `placeCard` supplies — queue length plus twice the number of
not-yet-flipped tile indices) it always drains its queue, and it processes
at most `comboFuel` entries.  A tile is pushed during the cascade only if
it is not already in `flippedIndices`, so the cascade itself enqueues each
tile at most once; but a tile seeded by both SAME and PLUS enters the
queue twice and is processed twice (see the counterexample). -/
theorem combo_cascade_halts (o : Player) (st : CascState) :
    (comboRun o (comboFuel st) st).1.queue = [] ∧
    (comboRun o (comboFuel st) st).2.length ≤ comboFuel st :=
  comboRun_drain o (comboFuel st) st (Nat.le_refl _)

theorem seriesOver_iff (rs : List MatchResult) :
    seriesOver rs = true ↔
      2 ≤ winCount rs .P1 ∨ 2 ≤ winCount rs .P2 ∨ 3 ≤ rs.length := by
  unfold seriesOver
  simp only [Bool.or_eq_true, decide_eq_true_eq]
  tauto

/-- C5 counterexample.  The fresh round state (two 5-card hands, empty
board) is reachable (zero placements) and the code's `scores` already sum
to 10 there — not 9: the claim `scoreA + scoreB = 9` is false.  (In fact
`|handA| + |handB| + occupiedTiles = 10` together with the score formula
forces the sum 10 in every reachable state, see the amended theorem.) -/
theorem score_sum_cx :
    InitRound csInit ∧ Reach gsAllOn csInit csInit ∧
      scoreP1 csInit + scoreP2 csInit = 10 ∧
      ¬ scoreP1 csInit + scoreP2 csInit = 9 :=
  ⟨⟨rfl, rfl, by decide⟩, Reach.refl _, by decide, by decide⟩

/-- C5 amended.  In every state reachable during a round from a fresh
start, `|handA| + |handB| + occupiedTiles = 10`; each player's score is
their hand size plus their owned board tiles (the `scores` memo), hence
`scoreA + scoreB = 10` (not 9); and every successful `placeCard` removes
exactly one card from the mover's hand, leaves the other hand unchanged,
and fills exactly one tile. -/
theorem round_invariant_spec (gs : GameSettings) (s0 s : GState)
    (h0 : InitRound s0) (hr : Reach gs s0 s) :
    s.p1Hand.length + s.p2Hand.length + occupiedCount s.board = 10 ∧
    scoreP1 s = s.p1Hand.length +
      (s.board.countP fun t => t.card.any fun c => decide (c.owner = some Player.P1)) ∧
    scoreP2 s = s.p2Hand.length +
      (s.board.countP fun t => t.card.any fun c => decide (c.owner = some Player.P2)) ∧
    scoreP1 s + scoreP2 s = 10 ∧
    (∀ (t u : GState) (idx hIdx : Nat) (o : Player) (evs : List Effect)
        (tile : BoardTile) (card : Card),
      t.board[idx]? = some tile → tile.card = none → t.turn = o →
      (handOf t o)[hIdx]? = some card → placeCard gs t idx hIdx o = some (u, evs) →
      (handOf u o).length + 1 = (handOf t o).length ∧
      handOf u (other o) = handOf t (other o) ∧
      occupiedCount u.board = occupiedCount t.board + 1) := by
  have hinv := reach_inv gs h0 hr
  refine ⟨hinv.1, rfl, rfl, ?_, ?_⟩
  · rw [scores_sum hinv.2]
    exact hinv.1
  · intro t u idx hIdx o evs tile card hb htc hturn hh hpc
    obtain ⟨u', evs', heq, hlen, hoth, _, hocc, _, _, _⟩ :=
      placeCard_success_spec gs t hb htc hturn hh
    have hue : u' = u := by
      rw [heq] at hpc
      exact congrArg Prod.fst (Option.some.inj hpc)
    subst hue
    exact ⟨hlen, hoth, hocc⟩

/-- Witness for the amended C5 at the fresh round state. -/
theorem round_invariant_spec_witness :
    csInit.p1Hand.length + csInit.p2Hand.length + occupiedCount csInit.board = 10 ∧
    scoreP1 csInit + scoreP2 csInit = 10 := by
  have h := round_invariant_spec gsAllOn csInit csInit ⟨rfl, rfl, by decide⟩ (Reach.refl _)
  exact ⟨h.1, h.2.2.2.1⟩

/-- C6.  A placed card's `effectiveStats` snapshot (`modifiedStats`) is
computed once at placement — `placeCard` stores
`calculateStats card tile.element` on the placed card — and never changes
afterwards: every capture in SAME, PLUS, basic and COMBO reassigns only
the `owner` field, so along any sequence of (possibly capturing)
placements every card on the board keeps its `modifiedStats` (and its base
stats and identity). -/
theorem effectiveStats_immutable (gs : GameSettings) {s t : GState}
    (hr : Reach gs s t) :
    (∀ pos c, cardAtB s.board pos = some c →
      ∃ c', cardAtB t.board pos = some c' ∧ c'.modifiedStats = c.modifiedStats ∧
        c'.stats = c.stats ∧ c'.id = c.id) ∧
    (∀ (u v : GState) (idx hIdx : Nat) (o : Player) (evs : List Effect)
        (tile : BoardTile) (card : Card),
      u.board[idx]? = some tile → tile.card = none → u.turn = o →
      (handOf u o)[hIdx]? = some card → placeCard gs u idx hIdx o = some (v, evs) →
      ∃ c', cardAtB v.board idx = some c' ∧
        c'.modifiedStats = some (calculateStats card tile.element)) := by
  constructor
  · intro pos c hc
    obtain ⟨c', hc', hid, hstats, hms, _⟩ := reach_cards gs hr pos c hc
    exact ⟨c', hc', hms, hstats, hid⟩
  · intro u v idx hIdx o evs tile card hb htc hturn hh hpc
    obtain ⟨v', evs', heq, _, _, _, _, _, _, c', hc', hms, _, _⟩ :=
      placeCard_success_spec gs u hb htc hturn hh
    have hve : v' = v := by
      rw [heq] at hpc
      exact congrArg Prod.fst (Option.some.inj hpc)
    subst hve
    exact ⟨c', hc', hms⟩

/-- Witness for C6: after the PLUS placement captures tile 1, the card
there still carries its original snapshot `[9,9,9,4]`. -/
theorem effectiveStats_immutable_witness :
    ∃ c', cardAtB (((placeCard gsAllOn plusState 4 0 .P1).map Prod.fst).getD plusState).board 1
        = some c' ∧ c'.modifiedStats = some [9, 9, 9, 4] := by
  obtain ⟨u, evs, heq⟩ : ∃ u evs, placeCard gsAllOn plusState 4 0 .P1 = some (u, evs) :=
    ⟨_, _, rfl⟩
  have hr : Reach gsAllOn plusState u := Reach.step (Reach.refl _) heq
  obtain ⟨c', hc', hms, _, _⟩ :=
    (effectiveStats_immutable gsAllOn hr).1 1 (mkCard 10 [9, 9, 9, 4] .P2) (by decide)
  rw [heq]
  simp only [Option.map_some', Option.getD_some]
  refine ⟨c', hc', ?_⟩
  rw [hms]
  rfl

/-- C7 counterexample.  A `placeCard` on an occupied tile and one out of
turn return the unchanged state with an empty event list — output
indistinguishable from a no-op, with no `IllegalMove` (or any other error)
anywhere in the function's codomain, so no rejection is signalled; and a
hand index outside the mover's hand is not guarded at all: the call
dereferences `undefined` and throws (modeled by `none`) instead of being
rejected.  This refutes the claim that all three violations are signalled
as an `IllegalMove` rejection. -/
theorem illegal_move_silent_cx :
    placeCard gsAllOn plusState 1 0 .P1 = some (plusState, []) ∧
    placeCard gsAllOn plusState 4 0 .P2 = some (plusState, []) ∧
    placeCard gsAllOn plusState 4 5 .P1 = none :=
  ⟨by decide, by decide, by decide⟩

/-- C7 amended.  `placeCard` on an occupied tile or out of turn changes no
state — board, hands and turn are returned exactly as they were — and
emits no events; the rejection is silent (the guard at App.tsx line 485
simply returns).  A card index outside the mover's hand is not guarded:
that call crashes with a `TypeError` (modeled by `none`) before any state
update, so every failed `placeCard` is still all-or-nothing, but no
`IllegalMove` signal exists in either case. -/
theorem placeCard_reject_spec (gs : GameSettings) (s : GState) (idx hIdx : Nat)
    (o : Player) :
    (∀ tile, s.board[idx]? = some tile → (tile.card.isSome = true ∨ s.turn ≠ o) →
      placeCard gs s idx hIdx o = some (s, [])) ∧
    (∀ tile, s.board[idx]? = some tile → tile.card = none → s.turn = o →
      (handOf s o)[hIdx]? = none → placeCard gs s idx hIdx o = none) := by
  constructor
  · intro tile hb hguard
    simp only [placeCard, hb, if_pos hguard]
  · intro tile hb htc hturn hh
    have hgu : ¬ (tile.card.isSome = true ∨ s.turn ≠ o) := by
      push_neg
      exact ⟨by simp [htc], hturn⟩
    simp only [placeCard, hb, if_neg hgu, hh]

/-- Witness for the amended C7: an out-of-turn call is a silent no-op, and
a call with hand index 9 into a 1-card hand crashes. -/
theorem placeCard_reject_spec_witness :
    placeCard gsAllOn plusState 1 0 .P2 = some (plusState, []) ∧
    placeCard gsAllOn plusState 4 9 .P1 = none := by
  refine ⟨?_, ?_⟩
  · exact (placeCard_reject_spec gsAllOn plusState 1 0 .P2).1
      { card := some (mkCard 10 [9, 9, 9, 4] .P2), element := none } (by decide) (by decide)
  · exact (placeCard_reject_spec gsAllOn plusState 4 9 .P1).2
      emptyTile (by decide) (by decide) (by decide) (by decide)

/-- C8.  The round-end transition fires only in the `PLAYING` phase with a
full board; it then appends exactly one `MatchResult` whose winner is the
strictly-higher score (or `DRAW` on equality), and the series ends exactly
when a player has two round wins or three rounds have been played,
otherwise the machine moves to `ROUND_END`. -/
theorem round_end_spec (results : List MatchResult) (s1 s2 : Nat)
    (board : Board) (phase : Phase)
    (hb : board.all (fun t => t.card.isSome) = true) :
    (roundEndStep .PLAYING board results s1 s2).1 =
      results ++ [⟨roundWinner s1 s2, (s1, s2)⟩] ∧
    (roundEndStep .PLAYING board results s1 s2).1.length = results.length + 1 ∧
    (s2 < s1 → roundWinner s1 s2 = .P1) ∧
    (s1 < s2 → roundWinner s1 s2 = .P2) ∧
    (s1 = s2 → roundWinner s1 s2 = .DRAW) ∧
    ((roundEndStep .PLAYING board results s1 s2).2 = .GAME_OVER ↔
      2 ≤ winCount (results ++ [(⟨roundWinner s1 s2, (s1, s2)⟩ : MatchResult)]) .P1 ∨
      2 ≤ winCount (results ++ [(⟨roundWinner s1 s2, (s1, s2)⟩ : MatchResult)]) .P2 ∨
      3 ≤ (results ++ [(⟨roundWinner s1 s2, (s1, s2)⟩ : MatchResult)]).length) ∧
    ((roundEndStep .PLAYING board results s1 s2).2 ≠ .GAME_OVER →
      (roundEndStep .PLAYING board results s1 s2).2 = .ROUND_END) ∧
    (phase ≠ .PLAYING → roundEndStep phase board results s1 s2 = (results, phase)) ∧
    (∀ b2 : Board, ¬ b2.all (fun t => t.card.isSome) = true →
      roundEndStep .PLAYING b2 results s1 s2 = (results, .PLAYING)) := by
  have hcond : Phase.PLAYING = Phase.PLAYING ∧
      board.all (fun t => t.card.isSome) = true := ⟨rfl, hb⟩
  refine ⟨?_, ?_, ?_, ?_, ?_, ?_, ?_, ?_, ?_⟩
  · unfold roundEndStep
    rw [if_pos hcond]
  · unfold roundEndStep
    rw [if_pos hcond]
    simp
  · intro h
    unfold roundWinner
    rw [if_pos h]
  · intro h
    unfold roundWinner
    rw [if_neg (by omega), if_pos h]
  · intro h
    unfold roundWinner
    rw [if_neg (by omega), if_neg (by omega)]
  · unfold roundEndStep
    rw [if_pos hcond]
    by_cases hso : seriesOver (results ++ [(⟨roundWinner s1 s2, (s1, s2)⟩ : MatchResult)]) = true
    · show (if seriesOver (results ++ [(⟨roundWinner s1 s2, (s1, s2)⟩ : MatchResult)]) = true
          then Phase.GAME_OVER else Phase.ROUND_END) = Phase.GAME_OVER ↔ _
      rw [if_pos hso]
      simp only [true_iff]
      exact (seriesOver_iff _).mp hso
    · show (if seriesOver (results ++ [(⟨roundWinner s1 s2, (s1, s2)⟩ : MatchResult)]) = true
          then Phase.GAME_OVER else Phase.ROUND_END) = Phase.GAME_OVER ↔ _
      rw [if_neg hso]
      constructor
      · intro he
        exact absurd he (by simp)
      · intro hrhs
        exact absurd ((seriesOver_iff _).mpr hrhs) hso
  · unfold roundEndStep
    rw [if_pos hcond]
    by_cases hso : seriesOver (results ++ [(⟨roundWinner s1 s2, (s1, s2)⟩ : MatchResult)]) = true
    · show (if seriesOver (results ++ [(⟨roundWinner s1 s2, (s1, s2)⟩ : MatchResult)]) = true
          then Phase.GAME_OVER else Phase.ROUND_END) ≠ Phase.GAME_OVER → _
      rw [if_pos hso]
      intro h
      exact absurd rfl h
    · show (if seriesOver (results ++ [(⟨roundWinner s1 s2, (s1, s2)⟩ : MatchResult)]) = true
          then Phase.GAME_OVER else Phase.ROUND_END) ≠ Phase.GAME_OVER → _
      rw [if_neg hso]
      intro _
      simp [hso]
  · intro hph
    unfold roundEndStep
    rw [if_neg (fun hc => hph hc.1)]
  · intro b2 hfull
    unfold roundEndStep
    rw [if_neg (fun hc => hfull hc.2)]

/-- Witness for C8: a full board in `PLAYING` with scores 6–4 and no prior
results appends a P1 win and moves to `ROUND_END`. -/
theorem round_end_spec_witness :
    (roundEndStep .PLAYING (List.replicate 9 { card := some (mkCard 1 [1, 1, 1, 1] .P1), element := none })
        [] 6 4).1 = [⟨.P1, (6, 4)⟩] ∧
    (roundEndStep .PLAYING (List.replicate 9 { card := some (mkCard 1 [1, 1, 1, 1] .P1), element := none })
        [] 6 4).2 = .ROUND_END := by
  have h := round_end_spec [] 6 4
    (List.replicate 9 { card := some (mkCard 1 [1, 1, 1, 1] .P1), element := none })
    .PLAYING (by decide)
  constructor
  · rw [h.1, show roundWinner 6 4 = Winner.P1 from h.2.2.1 (by decide)]
    rfl
  · have hne : (roundEndStep .PLAYING
        (List.replicate 9 { card := some (mkCard 1 [1, 1, 1, 1] .P1), element := none })
        [] 6 4).2 ≠ .GAME_OVER := by
      intro he
      have hrhs := h.2.2.2.2.2.1.mp he
      rw [show roundWinner 6 4 = Winner.P1 from h.2.2.1 (by decide)] at hrhs
      revert hrhs
      decide
    exact h.2.2.2.2.2.2.1 hne

/-- C9 counterexample.  The engine's `evaluateMove` (App.tsx lines 79–121)
ignores `cpuDifficulty` entirely: on a concrete candidate its EXPERT score
equals its MID score (here 167/2 = 83.5, a PLUS trigger worth 60 plus one
flip worth 20 plus the 3.5 defense term), and is not ~1.2× the MID score —
no EXPERT scaling exists in the evaluator that `getBestMove` (App.tsx
lines 123–133) actually calls.  (A 1.2× factor appears only in the unused
`src/types.ts` variant, whose MID path in turn does not use this scoring
formula, so the claim holds for neither source.) -/
theorem expert_no_scaling_cx :
    evaluateMove 4 plusHandCard plusBoard .P2 gsExpert =
      evaluateMove 4 plusHandCard plusBoard .P2 gsAllOn ∧
    evaluateMove 4 plusHandCard plusBoard .P2 gsAllOn = 167 / 2 ∧
    ¬ evaluateMove 4 plusHandCard plusBoard .P2 gsExpert =
        6 / 5 * evaluateMove 4 plusHandCard plusBoard .P2 gsAllOn := by
  have hp : evalParts 4 plusHandCard plusBoard .P2 gsAllOn =
      ⟨1, false, true, 7, false⟩ := by decide
  have hpe : evalParts 4 plusHandCard plusBoard .P2 gsExpert =
      ⟨1, false, true, 7, false⟩ := by decide
  have h1 : evaluateMove 4 plusHandCard plusBoard .P2 gsAllOn = 167 / 2 := by
    simp only [evaluateMove, hp]
    norm_num
  have h2 : evaluateMove 4 plusHandCard plusBoard .P2 gsExpert = 167 / 2 := by
    simp only [evaluateMove, hpe]
    norm_num
  refine ⟨h2.trans h1.symm, h1, ?_⟩
  rw [h2, h1]
  norm_num

/-- C9 amended.  For MID, HIGH and EXPERT alike, `getBestMove` scores every
(empty tile, hand card) candidate with the additive `evaluateMove` formula
(+20 per counted flip with SAME, PLUS and basic flips summed, flat +50 if
SAME fires, flat +60 if any PLUS sum fires, +15 for corner tiles, plus half
the sum — i.e. twice the average — of the candidate's effective stats); the
score never depends on the difficulty, EXPERT applies no scaling, and the
returned candidate has maximal score among all candidates (`ranked` stands
for the output of the score-descending sort with random tie-break). -/
theorem cpu_eval_spec :
    (∀ (bIdx : Nat) (card : Card) (board : Board) (o : Player)
        (g1 g2 : GameSettings), g1.sameEnabled = g2.sameEnabled →
        g1.plusEnabled = g2.plusEnabled →
        evaluateMove bIdx card board o g1 = evaluateMove bIdx card board o g2) ∧
    (∀ (board : Board) (hand : List Card) (gs : GameSettings) (rt rh : Nat)
        (ranked : List Move) (m : Nat × Nat),
      ranked.Perm (candidateMoves board hand gs) →
      ranked.Sorted (fun a b : Move => b.score ≤ a.score) →
      getBestMove board hand gs rt rh ranked = some m →
      gs.cpuDifficulty ≠ .LOW →
      ∃ mv ∈ candidateMoves board hand gs, m = (mv.boardIdx, mv.handIdx) ∧
        ∀ mv' ∈ candidateMoves board hand gs, mv'.score ≤ mv.score) := by
  constructor
  · intro bIdx card board o g1 g2 h1 h2
    unfold evaluateMove evalParts
    rw [h1, h2]
  · intro board hand gs rt rh ranked m hperm hsorted hres hdiff
    unfold getBestMove at hres
    by_cases hcase : gs.cpuDifficulty = .LOW ∨ (emptyCells board).isEmpty = true
    · rw [if_pos hcase] at hres
      rcases hcase with h | h
      · exact absurd h hdiff
      · exfalso
        have hnil : emptyCells board = [] := List.isEmpty_iff.mp h
        rw [hnil] at hres
        simp at hres
    · rw [if_neg hcase] at hres
      cases hr : ranked with
      | nil =>
          rw [hr] at hres
          simp at hres
      | cons hd tl =>
          rw [hr] at hres
          simp only [List.head?_cons, Option.map_some', Option.some.injEq] at hres
          have hmem : hd ∈ ranked := by
            rw [hr]
            exact List.mem_cons_self hd tl
          have hmemc : hd ∈ candidateMoves board hand gs := hperm.mem_iff.mp hmem
          refine ⟨hd, hmemc, hres.symm, ?_⟩
          intro mv' hmv'
          have hmv'r : mv' ∈ ranked := hperm.mem_iff.mpr hmv'
          rw [hr] at hmv'r hsorted
          rcases List.mem_cons.mp hmv'r with he | htl
          · rw [he]
          · exact (List.pairwise_cons.mp hsorted).1 mv' htl

/-- A board with only tile 0 free, used to exercise the CPU selection. -/
def oneEmptyBoard : Board :=
  emptyTile :: List.replicate 8 { card := some (mkCard 2 [9, 9, 9, 9] .P1), element := none }

/-- Witness for the amended C9: on a one-empty-tile board with a one-card
hand the candidate list is a singleton, EXPERT and MID score it equally,
and `getBestMove` returns it as the maximum. -/
theorem cpu_eval_spec_witness :
    evaluateMove 0 plusHandCard oneEmptyBoard .P2 gsExpert =
      evaluateMove 0 plusHandCard oneEmptyBoard .P2 gsAllOn ∧
    ∃ mv ∈ candidateMoves oneEmptyBoard [plusHandCard] gsExpert,
      ((0 : Nat), (0 : Nat)) = (mv.boardIdx, mv.handIdx) ∧
      ∀ mv' ∈ candidateMoves oneEmptyBoard [plusHandCard] gsExpert,
        mv'.score ≤ mv.score := by
  refine ⟨cpu_eval_spec.1 0 plusHandCard oneEmptyBoard .P2 gsExpert gsAllOn rfl rfl, ?_⟩
  refine cpu_eval_spec.2 oneEmptyBoard [plusHandCard] gsExpert 0 0
    (candidateMoves oneEmptyBoard [plusHandCard] gsExpert) (0, 0)
    (List.Perm.refl _) ?_ rfl (by decide)
  show List.Sorted _
    (candidateMoves oneEmptyBoard [plusHandCard] gsExpert)
  have he : candidateMoves oneEmptyBoard [plusHandCard] gsExpert =
      [⟨0, 0, evaluateMove 0 plusHandCard oneEmptyBoard .P2 gsExpert⟩] := rfl
  rw [he]
  exact List.sorted_singleton _

/-- C10.  Whenever the board has at least one empty tile and the hand is
non-empty, `getBestMove` — at all four difficulty levels, for every value
of the two random draws of the LOW branch (`rt`, `rh`, always in range by
construction of `Math.floor(Math.random()*len)`) and every permutation the
randomized sort can produce — returns indices of an unoccupied tile in
0..8 and of a card inside the hand; in particular no board, hand or
candidate-list access is out of bounds (the result is `some`, never the
modeled crash). -/
theorem getBestMove_safe (board : Board) (hand : List Card) (gs : GameSettings)
    (rt rh : Nat) (ranked : List Move)
    (hne : emptyCells board ≠ [])
    (hh : hand ≠ [])
    (hrt : rt < (emptyCells board).length)
    (hrh : rh < hand.length)
    (hperm : ranked.Perm (candidateMoves board hand gs)) :
    ∃ bi hi, getBestMove board hand gs rt rh ranked = some (bi, hi) ∧
      bi < board.length ∧ cardAtB board bi = none ∧ hi < hand.length := by
  unfold getBestMove
  by_cases hcase : gs.cpuDifficulty = .LOW ∨ (emptyCells board).isEmpty = true
  · rw [if_pos hcase]
    have hbi : (emptyCells board)[rt]? = some (emptyCells board)[rt] :=
      List.getElem?_eq_getElem hrt
    rw [hbi]
    have hmem : (emptyCells board)[rt] ∈ emptyCells board := List.getElem_mem _
    obtain ⟨t, hbt, htc⟩ := mem_emptyCells.mp hmem
    have hie : hand.isEmpty = false := by
      cases hand with
      | nil => exact absurd rfl hh
      | cons a l => rfl
    refine ⟨(emptyCells board)[rt], rh, ?_, ?_, ?_, hrh⟩
    · simp only [Option.map_some', hie]
      rfl
    · exact (List.getElem?_eq_some_iff.mp hbt).1
    · simp [cardAtB, hbt, htc]
  · rw [if_neg hcase]
    have hlen0 : 0 < hand.length := List.length_pos.mpr hh
    obtain ⟨e, he⟩ := List.exists_mem_of_ne_nil _ hne
    have hcard0 : ∃ card0, hand[0]? = some card0 := by
      cases hand with
      | nil => exact absurd rfl hh
      | cons a l => exact ⟨a, by simp⟩
    obtain ⟨card0, hc0⟩ := hcard0
    have hm : (⟨e, 0, evaluateMove e card0 board .P2 gs⟩ : Move) ∈
        candidateMoves board hand gs :=
      mem_candidateMoves.mpr ⟨he, hlen0, card0, hc0, rfl⟩
    cases hr : ranked with
    | nil =>
        exfalso
        rw [hr] at hperm
        have := hperm.symm.mem_iff.mp hm
        cases this
    | cons hd tl =>
        have hmemc : hd ∈ candidateMoves board hand gs := by
          refine hperm.mem_iff.mp ?_
          rw [hr]
          exact List.mem_cons_self hd tl
        obtain ⟨hbm, hhm, -⟩ := mem_candidateMoves.mp hmemc
        obtain ⟨t, hbt, htc⟩ := mem_emptyCells.mp hbm
        refine ⟨hd.boardIdx, hd.handIdx, ?_, (List.getElem?_eq_some_iff.mp hbt).1,
          by simp [cardAtB, hbt, htc], hhm⟩
        simp

/-- Witness for C10 on the PLUS scenario board with a one-card hand. -/
theorem getBestMove_safe_witness :
    ∃ bi hi, getBestMove plusBoard [plusHandCard] gsAllOn 0 0
        (candidateMoves plusBoard [plusHandCard] gsAllOn) = some (bi, hi) ∧
      bi < plusBoard.length ∧ cardAtB plusBoard bi = none ∧
      hi < ([plusHandCard] : List Card).length :=
  getBestMove_safe plusBoard [plusHandCard] gsAllOn 0 0
    (candidateMoves plusBoard [plusHandCard] gsAllOn)
    (by decide) (by decide) (by decide) (by decide) (List.Perm.refl _)

end TT
